import Mathlib

/-!
# Verification of the Zoe elastic scheduler

A shallow embedding of the relevant parts of
`zoe_master/scheduler/elastic_scheduler.py` (the scheduler loop, dead-service
detector, core-limit rebalancer, queue operations and statistics) together
with a model of the `SimulatedPlatform` allocator, which is not part of the
available sources and is therefore modelled from the specification (§4.2).

Numeric quantities (memory, cores, sizes, timestamps) are Python floats in
the source; they are embedded as rationals (ℚ), which supports the exact
divisions performed by the core-limit rebalancer.
-/

namespace Zoe

/-- Backend status of a service (`zoe_lib.state.Service`), per the spec:
`undefined → start → die → destroy`. -/
inductive BackendStatus where
  | undefined
  | start
  | die
  | destroy
deriving DecidableEq, Repr

/-- Execution status values (spec §3). -/
inductive ExecStatus where
  | submitted
  | scheduled
  | starting
  | image_download
  | running
  | cleaning_up
  | terminated
  | error
deriving DecidableEq, Repr

/-- Result of `backend.start_essential` (spec §4.6). -/
inductive StartResult where
  | ok
  | requeue
  | fatal
deriving DecidableEq, Repr

/-- The validated scheduler policies; `ZoeElasticScheduler.__init__` raises
`UnsupportedSchedulerPolicyError` for any other string. -/
inductive Policy where
  | FIFO
  | SIZE
  | DYNSIZE
deriving DecidableEq, Repr

/-- A `{min, max}` resource range. -/
structure MinMax where
  min : ℚ
  max : ℚ
deriving DecidableEq, Repr

/-- A `{cores: {min,max}, memory: {min,max}}` reservation. -/
structure Reservation where
  cores : MinMax
  memory : MinMax
deriving DecidableEq, Repr

/-- One service of an execution (the fields of `zoe_lib.state.Service` the
scheduler reads). `backend_host` is the node name when placed. -/
structure Service where
  id : Nat
  name : String
  essential : Bool
  backend_status : BackendStatus
  backend_host : Option String
  resource_reservation : Reservation
deriving DecidableEq, Repr

/-- One execution (the fields of `zoe_lib.state.Execution` the scheduler
reads and writes). Python identity of execution objects is modelled by the
stable `id`. -/
structure Execution where
  id : Nat
  status : ExecStatus
  size : ℚ
  services : List Service
  total_reservations : Reservation
deriving DecidableEq, Repr

/-- Modelled from the spec: the derived flag `is_running` of `Execution`
(spec §3 lists it among the derived status flags); `zoe_lib/state.py` is not
among the available sources. -/
def Execution.is_running (e : Execution) : Bool :=
  e.status = ExecStatus.running

/-- Modelled from the spec: the derived flag `all_services_running` used in
`ZoeElasticScheduler.__init__`; true when every service has backend status
`start`. -/
def Execution.all_services_running (e : Execution) : Bool :=
  e.services.all fun s => s.backend_status = BackendStatus.start

/-- `ExecutionProgress`: per-queued-execution metadata
(`last_time_scheduled` is 0 if the execution was never attempted). -/
structure ExecutionProgress where
  last_time_scheduled : ℚ
  progress_sequence : List ℚ
deriving DecidableEq, Repr

/-- `ExecutionProgress.__init__`. -/
def ExecutionProgress.init : ExecutionProgress :=
  { last_time_scheduled := 0, progress_sequence := [] }

/-! ## Association-list helpers

`additional_exec_state` is a Python dict keyed by execution id; it is
embedded as an association list with at most one binding per key
(`setA` replaces an existing binding, `eraseA` deletes it). -/

/-- Dict lookup: first binding for the key, if any. -/
def lookupA (l : List (Nat × ExecutionProgress)) (k : Nat) :
    Option ExecutionProgress :=
  match l with
  | [] => none
  | (k', v) :: rest => if k' = k then some v else lookupA rest k

/-- Dict assignment `d[k] = v`: replace the existing binding or append. -/
def setA (l : List (Nat × ExecutionProgress)) (k : Nat)
    (v : ExecutionProgress) : List (Nat × ExecutionProgress) :=
  match l with
  | [] => [(k, v)]
  | (k', v') :: rest =>
      if k' = k then (k, v) :: rest else (k', v') :: setA rest k v

/-- Dict deletion `del d[k]` (with the `KeyError` swallowed, as in
`terminate`): remove the binding for the key if present. -/
def eraseA (l : List (Nat × ExecutionProgress)) (k : Nat) :
    List (Nat × ExecutionProgress) :=
  match l with
  | [] => []
  | (k', v') :: rest =>
      if k' = k then rest else (k', v') :: eraseA rest k

/-! ## List-of-executions helpers

Python `list.remove(x)` removes the first occurrence of `x` (object
identity); executions are identified by `id`. -/

/-- Ids of a list of executions. -/
def execIds (l : List Execution) : List Nat :=
  l.map Execution.id

/-- `list.remove` for executions: remove the first execution with the given
id, or fail (Python raises `ValueError`) when none is present. -/
def removeById (l : List Execution) (i : Nat) : Option (List Execution) :=
  match l with
  | [] => none
  | e :: rest =>
      if e.id = i then some rest
      else (removeById rest i).map fun r => e :: r

/-- Total variant of `removeById` for call sites where the element was just
drawn from the list itself (it cannot fail there): remove the first
execution with the given id, identity if absent. -/
def eraseById (l : List Execution) (i : Nat) : List Execution :=
  match l with
  | [] => []
  | e :: rest => if e.id = i then rest else e :: eraseById rest i

/-! ## SimulatedPlatform

`zoe_master/scheduler/simulated_platform.py` is not among the available
sources; the whole allocator below is modelled from spec §4.2. -/

/-- Modelled from the spec: one node of the simulator's mutable deep copy of
the cluster snapshot (memory is the placement-relevant resource). -/
structure SimNode where
  name : String
  memory_total : ℚ
  memory_reserved : ℚ
deriving DecidableEq, Repr

/-- Modelled from the spec: one recorded placement (service on node), with
the reserved memory amount and whether the service was placed as elastic. -/
structure SimPlacement where
  service_id : Nat
  execution_id : Nat
  node_name : String
  memory : ℚ
  elastic : Bool
deriving DecidableEq, Repr

/-- Modelled from the spec: `SimulatedPlatform`, a mutable in-memory model of
a `ClusterStats` snapshot. -/
structure SimulatedPlatform where
  nodes : List SimNode
  placements : List SimPlacement
deriving DecidableEq, Repr

namespace SimulatedPlatform

/-- Modelled from the spec: `aggregated_free_memory()` = sum over nodes of
`memory_total − memory_reserved`. -/
def aggregated_free_memory (p : SimulatedPlatform) : ℚ :=
  (p.nodes.map fun n => n.memory_total - n.memory_reserved).sum

/-- Modelled from the spec: a node can host a reservation of `m` memory when
reserving it still leaves `memory_reserved ≤ memory_total`. -/
def nodeFits (n : SimNode) (m : ℚ) : Bool :=
  n.memory_reserved + m ≤ n.memory_total

/-- Modelled from the spec: keep the better of the best node so far and a
candidate node — a fitting candidate beats none, a smaller residual memory
after placement beats a larger one, ties break by node name ascending. -/
def chooseBetter (m : ℚ) (best : Option SimNode) (n : SimNode) :
    Option SimNode :=
  if nodeFits n m then
    match best with
    | none => some n
    | some b =>
        if n.memory_total - (n.memory_reserved + m)
              < b.memory_total - (b.memory_reserved + m)
            ∨ (n.memory_total - (n.memory_reserved + m)
                  = b.memory_total - (b.memory_reserved + m)
                ∧ n.name < b.name) then some n
        else some b
  else best

/-- Modelled from the spec: node choice — best fit by residual memory after
placement, tie-break by node name ascending. -/
def chooseNode (nodes : List SimNode) (m : ℚ) : Option SimNode :=
  nodes.foldl (chooseBetter m) none

/-- Reserve `m` memory on the first node with the given name. -/
def reserveOn (nodes : List SimNode) (name : String) (m : ℚ) :
    List SimNode :=
  match nodes with
  | [] => []
  | n :: rest =>
      if n.name = name then
        { n with memory_reserved := n.memory_reserved + m } :: rest
      else n :: reserveOn rest name m

/-- Release `m` memory on the first node with the given name. -/
def releaseOn (nodes : List SimNode) (name : String) (m : ℚ) :
    List SimNode :=
  match nodes with
  | [] => []
  | n :: rest =>
      if n.name = name then
        { n with memory_reserved := n.memory_reserved - m } :: rest
      else n :: releaseOn rest name m

/-- Modelled from the spec: place one service of an execution by the fit
rule, recording the placement and deducting the reservation;
`none` when no node fits. -/
def placeService (p : SimulatedPlatform) (execId : Nat) (s : Service)
    (elastic : Bool) : Option SimulatedPlatform :=
  (chooseNode p.nodes s.resource_reservation.memory.min).map fun n =>
    { nodes := reserveOn p.nodes n.name s.resource_reservation.memory.min,
      placements :=
        p.placements ++
          [⟨s.id, execId, n.name, s.resource_reservation.memory.min,
            elastic⟩] }

/-- Whether the simulator already holds a placement for a service id. -/
def isPlaced (p : SimulatedPlatform) (sid : Nat) : Bool :=
  p.placements.any fun pl => pl.service_id = sid

/-- Modelled from the spec: `allocate_essential(execution) -> bool`,
attempting to place every essential service; all-or-nothing — if any
essential service cannot fit, roll back to the original state and
return false. -/
def allocate_essential (p : SimulatedPlatform) (e : Execution) :
    Bool × SimulatedPlatform :=
  go p (e.services.filter fun s => s.essential)
where
  /-- Place the remaining essential services in order, rolling back to the
  original platform `p` on the first failure. -/
  go (acc : SimulatedPlatform) :
      List Service → Bool × SimulatedPlatform
  | [] => (true, acc)
  | s :: rest =>
      match placeService acc e.id s false with
      | none => (false, p)
      | some acc' => go acc' rest

/-- Modelled from the spec: `allocate_elastic(execution)` — greedily place
each elastic service; services that do not fit are skipped, services
already placed are skipped (idempotence). -/
def allocate_elastic (p : SimulatedPlatform) (e : Execution) :
    SimulatedPlatform :=
  (e.services.filter fun s => !s.essential).foldl
    (fun acc s =>
      if acc.isPlaced s.id then acc
      else
        match placeService acc e.id s true with
        | none => acc
        | some acc' => acc')
    p

/-- Modelled from the spec: `deallocate_elastic(execution)` — remove all
elastic placements of the execution, restoring reserved memory. -/
def deallocate_elastic (p : SimulatedPlatform) (e : Execution) :
    SimulatedPlatform :=
  let mine := p.placements.filter fun pl =>
    pl.execution_id = e.id ∧ pl.elastic
  { nodes := mine.foldl (fun ns pl => releaseOn ns pl.node_name pl.memory)
      p.nodes,
    placements := p.placements.filter fun pl =>
      ¬(pl.execution_id = e.id ∧ pl.elastic) }

/-- Modelled from the spec: `get_service_allocation()` — the committed
mapping from service id to node name. -/
def get_service_allocation (p : SimulatedPlatform) : List (Nat × String) :=
  p.placements.map fun pl => (pl.service_id, pl.node_name)

end SimulatedPlatform

/-! ## The inner placement simulation loop

`loop_start_th`, lines 227–253: the candidate `for`-loop that builds
`jobs_to_launch` over the `SimulatedPlatform` snapshot. Besides the final
simulator state, `jobs_to_launch` and `free_resources`, the embedding
returns the trace of the recorded `free_resources` values, one per loop
iteration that did not hit the "no progress" guard. -/

/-- One candidate iteration after another (source lines 231–253). For each
candidate: copy `jobs_to_launch`, deallocate the elastic services of every
job in it, attempt `allocate_essential` unless the job is running, append
the job when placeable, re-allocate the elastic services, then compare the
aggregated free memory with the recorded one: on `≥`, revert to the copy
and stop; otherwise record the strictly smaller value and continue. -/
def placementInner (sim : SimulatedPlatform) (jobs_to_launch : List Execution)
    (free_resources : ℚ) :
    List Execution →
    SimulatedPlatform × List Execution × ℚ × List ℚ
  | [] => (sim, jobs_to_launch, free_resources, [])
  | job :: rest =>
      let jobs_to_launch_copy := jobs_to_launch
      let sim1 := jobs_to_launch.foldl
        (fun s j => s.deallocate_elastic j) sim
      let res :=
        if !job.is_running then sim1.allocate_essential job
        else (false, sim1)
      let job_can_start := res.1
      let sim2 := res.2
      let jobs2 :=
        if job_can_start || job.is_running then jobs_to_launch ++ [job]
        else jobs_to_launch
      let sim3 := jobs2.foldl (fun s j => s.allocate_elastic j) sim2
      let current_free_resources := sim3.aggregated_free_memory
      if current_free_resources ≥ free_resources then
        (sim3, jobs_to_launch_copy, free_resources, [])
      else
        let r := placementInner sim3 jobs2 current_free_resources rest
        (r.1, r.2.1, r.2.2.1, current_free_resources :: r.2.2.2)

/-- The placement simulation of one inner-loop pass (source lines 227–253):
start from `jobs_to_launch = []` and
`free_resources = aggregated_free_memory()`. -/
def tryPlacement (sim : SimulatedPlatform)
    (jobs_to_attempt_scheduling : List Execution) :
    SimulatedPlatform × List Execution × ℚ × List ℚ :=
  placementInner sim [] sim.aggregated_free_memory jobs_to_attempt_scheduling

/-! ## Scheduler queue state

The mutable state of `ZoeElasticScheduler` that the queue operations touch.
Threads are counted rather than held; external backend calls are recorded
as events. -/

/-- Externally visible calls made by the queue operations. -/
inductive Event where
  | startEssentialEv (eid : Nat) (r : StartResult)
  | startElasticEv (eid : Nat)
  | requeueEv (eid : Nat)
  | releaseLockEv (eid : Nat)
  | terminateServiceEv (sid : Nat)
  | restartedEv (sid : Nat)
deriving DecidableEq, Repr

/-- The scheduler's queue-related state. -/
structure SchedulerState where
  policy : Policy
  queue : List Execution
  queue_running : List Execution
  additional_exec_state : List (Nat × ExecutionProgress)
  async_threads : Nat
  core_limit_recalc_trigger : Bool
  trigger_count : Nat
  events : List Event
deriving DecidableEq, Repr

/-- `incoming(execution)` (lines 91–100): create a fresh progress entry,
append the execution to the pending queue and trigger the scheduler. -/
def incoming (st : SchedulerState) (e : Execution) : SchedulerState :=
  { st with
    additional_exec_state :=
      setA st.additional_exec_state e.id ExecutionProgress.init,
    queue := st.queue ++ [e],
    trigger_count := st.trigger_count + 1 }

/-- The mutations `terminate` performs after finding the execution in one
of the queues: delete its progress entry (`KeyError` swallowed), signal the
core-limit rebalancer, start one async termination thread. -/
def terminateMark (st : SchedulerState) (e : Execution) : SchedulerState :=
  { st with
    additional_exec_state := eraseA st.additional_exec_state e.id,
    core_limit_recalc_trigger := true,
    async_threads := st.async_threads + 1 }

/-- `terminate(execution)` (lines 102–136), synchronous part: remove the
execution from the pending queue, else from the running queue, else log an
error and return with nothing mutated. -/
def terminate (st : SchedulerState) (e : Execution) : SchedulerState :=
  match removeById st.queue e.id with
  | some q => terminateMark { st with queue := q } e
  | none =>
      match removeById st.queue_running e.id with
      | some r => terminateMark { st with queue_running := r } e
      | none => st

/-- First essential service of an execution reported dead by the backend
(the inner service loop of the first `_check_dead_services` sweep breaks at
the first hit). -/
def findDeadEssential (e : Execution) : Option Service :=
  e.services.find? fun s =>
    s.essential && s.backend_status == BackendStatus.die

/-- First non-essential service of an execution reported dead by the
backend (second sweep). -/
def findDeadElastic (e : Execution) : Option Service :=
  e.services.find? fun s =>
    !s.essential && s.backend_status == BackendStatus.die

/-- `service.restarted()` applied inside an execution: the matching service
goes back to backend status `start`. Modelled from the spec (§3:
"`restarted()` clears the die flag back to `start`"); `zoe_lib/state.py` is
not among the available sources. -/
def restartService (e : Execution) (sid : Nat) : Execution :=
  { e with services := e.services.map fun s =>
      if s.id = sid then { s with backend_status := BackendStatus.start }
      else s }

/-- `execution.set_cleaning_up()`. -/
def setCleaningUp (e : Execution) : Execution :=
  { e with status := ExecStatus.cleaning_up }

/-- First sweep of `_check_dead_services` (lines 349–356) with Python's
list-iterator semantics made explicit: the iterator keeps an index into
`queue_running` and stops past the end; when the body's `terminate` removes
the current execution the following executions shift one position left, so
the next iteration — the index is incremented regardless — skips the
execution that followed a removed one. The in-place `service.restarted()`
and `execution.set_cleaning_up()` mutate the object that `terminate` then
removes from the state; the backend-visible restart is recorded as an
event. The fuel starts at the initial list length, an upper bound on the
iteration count. -/
def sweepDeadEssential (fuel i : Nat) (st : SchedulerState) :
    SchedulerState :=
  match fuel with
  | 0 => st
  | fuel + 1 =>
      match st.queue_running[i]? with
      | none => st
      | some e =>
          match findDeadEssential e with
          | none => sweepDeadEssential fuel (i + 1) st
          | some s =>
              sweepDeadEssential fuel (i + 1)
                (terminate
                  { st with events := st.events ++ [Event.restartedEv s.id] }
                  e)

/-- Second sweep of `_check_dead_services` (lines 359–367), same iterator
semantics: an execution with a dead non-essential service gets
`terminate_service(service)`, `service.restarted()`, is removed from the
running queue and appended (with the restarted service) to the pending
queue. -/
def sweepDeadElastic (fuel i : Nat) (st : SchedulerState) :
    SchedulerState :=
  match fuel with
  | 0 => st
  | fuel + 1 =>
      match st.queue_running[i]? with
      | none => st
      | some e =>
          match findDeadElastic e with
          | none => sweepDeadElastic fuel (i + 1) st
          | some s =>
              sweepDeadElastic fuel (i + 1)
                { st with
                  queue_running := eraseById st.queue_running e.id,
                  queue := st.queue ++ [restartService e s.id],
                  events := st.events
                    ++ [Event.terminateServiceEv s.id,
                        Event.restartedEv s.id] }

/-- `_check_dead_services` (lines 347–367): the essential sweep first, then
the elastic sweep. -/
def checkDeadServices (st : SchedulerState) : SchedulerState :=
  let st1 := sweepDeadEssential st.queue_running.length 0 st
  sweepDeadElastic st1.queue_running.length 0 st1

/-- One step of the recovery pass of `ZoeElasticScheduler.__init__` (lines
78–83): a fully-running execution goes to the running queue; any other goes
to the pending queue with a fresh progress entry. -/
def initStep (st : SchedulerState) (e : Execution) : SchedulerState :=
  if e.all_services_running then
    { st with queue_running := st.queue_running ++ [e] }
  else
    { st with
      queue := st.queue ++ [e],
      additional_exec_state :=
        setA st.additional_exec_state e.id ExecutionProgress.init }

/-- The recovery pass of `ZoeElasticScheduler.__init__` (lines 78–83),
folding `initStep` over the selected executions starting from the empty
state. -/
def initScheduler (policy : Policy) (rows : List Execution) :
    SchedulerState :=
  (rows.filter fun e => e.status == ExecStatus.running).foldl initStep
    { policy := policy, queue := [], queue_running := [],
      additional_exec_state := [], async_threads := 0,
      core_limit_recalc_trigger := false, trigger_count := 0, events := [] }

/-- The invariant of claim C10 on the pending queue: every queued execution
has a progress entry. -/
def invariantQ (st : SchedulerState) : Prop :=
  ∀ e ∈ st.queue, (lookupA st.additional_exec_state e.id).isSome

/-- The companion invariant on the running queue: every running execution
has a progress entry. -/
def invariantR (st : SchedulerState) : Prop :=
  ∀ e ∈ st.queue_running, (lookupA st.additional_exec_state e.id).isSome

/-- Well-formedness carried through the dead-service sweeps: both progress
invariants, disjointness of the two queues' id sets, and distinct running
ids. -/
def WFState (st : SchedulerState) : Prop :=
  invariantQ st ∧ invariantR st ∧
  (∀ i ∈ execIds st.queue, i ∉ execIds st.queue_running) ∧
  (execIds st.queue_running).Nodup

/-! ## Commit phase

Lines 259–287 of `loop_start_th`: the simulated placement is ported to the
real cluster — `start_essential` / `start_elastic` per job in
`jobs_to_launch`, then the rebalancer signal and the end-of-round requeue
pass. The backend's observable responses are inputs: `sres` is the
`start_essential` result per execution id, `esr` the observed
`essential_services_running` flag, `active` the observed
`all_services_active` flag after the start calls. -/

/-- The state threaded through the commit phase: the two queues, the
surviving candidate list `jobs_to_attempt_scheduling`, the progress dict,
the rebalancer trigger and the recorded backend events. -/
structure CommitState where
  queue : List Execution
  queue_running : List Execution
  candidates : List Execution
  additional_exec_state : List (Nat × ExecutionProgress)
  core_limit_recalc_trigger : Bool
  events : List Event
deriving DecidableEq, Repr

/-- `_requeue(execution)` (lines 177–181): release the termination lock,
stamp `last_time_scheduled = now` (a missing entry is the Python
`KeyError`, modelled as `none`); the not-in-queue sanity check only logs. -/
def requeueJob (now : ℚ) (st : CommitState) (e : Execution) :
    Option CommitState :=
  match lookupA st.additional_exec_state e.id with
  | none => none
  | some pr =>
      some { st with
        additional_exec_state := setA st.additional_exec_state e.id
          { pr with last_time_scheduled := now },
        events := st.events
          ++ [Event.releaseLockEv e.id, Event.requeueEv e.id] }

/-- The tail of one commit-loop iteration once the essential services are
up (lines 275–282): `start_elastic(job)`, and if all services are active,
release the lock, drop the job from the candidates and the pending queue
(`list.remove` raises on an absent element, modelled as `none`) and append
it to the running queue. -/
def commitFinish (active : Nat → Bool) (st : CommitState)
    (job : Execution) : Option CommitState :=
  let st1 := { st with events := st.events ++ [Event.startElasticEv job.id] }
  if active job.id then
    let st2 := { st1 with
      events := st1.events ++ [Event.releaseLockEv job.id] }
    match removeById st2.candidates job.id with
    | none => none
    | some cands =>
        match removeById st2.queue job.id with
        | none => none
        | some q =>
            some { st2 with
              candidates := cands,
              queue := q,
              queue_running := st2.queue_running ++ [job] }
  else some st1

/-- One commit-loop iteration (lines 259–282): `start_essential` is skipped
when the job's essential services already run; otherwise its result is
dispatched — `fatal` removes the job from the candidates and the pending
queue and releases its lock (the job is discarded), `requeue` re-queues,
`ok` sets the execution running — and the surviving paths run
`commitFinish`. -/
def commitStep (sres : Nat → StartResult) (esr active : Nat → Bool)
    (now : ℚ) (st : CommitState) (job : Execution) : Option CommitState :=
  if esr job.id then commitFinish active st job
  else
    match sres job.id with
    | StartResult.fatal =>
        let st1 := { st with events := st.events
          ++ [Event.startEssentialEv job.id StartResult.fatal] }
        match removeById st1.candidates job.id with
        | none => none
        | some cands =>
            match removeById st1.queue job.id with
            | none => none
            | some q =>
                some { st1 with
                  candidates := cands, queue := q,
                  events := st1.events ++ [Event.releaseLockEv job.id] }
    | StartResult.requeue =>
        requeueJob now
          { st with events := st.events
              ++ [Event.startEssentialEv job.id StartResult.requeue] }
          job
    | StartResult.ok =>
        commitFinish active
          { st with events := st.events
              ++ [Event.startEssentialEv job.id StartResult.ok] }
          { job with status := ExecStatus.running }

/-- The commit phase (lines 259–287): the commit loop over
`jobs_to_launch`, the rebalancer signal, then the requeue pass over the
candidates remaining at that point. -/
def commitPhase (sres : Nat → StartResult) (esr active : Nat → Bool)
    (now : ℚ) (st : CommitState) (jobs_to_launch : List Execution) :
    Option CommitState := do
  let st1 ← jobs_to_launch.foldlM (commitStep sres esr active now) st
  let st2 := { st1 with core_limit_recalc_trigger := true }
  st2.candidates.foldlM (fun s j => requeueJob now s j) st2

/-- The premise of the fatal-discard argument for a given job id: queue and
candidate ids are distinct, the id is not running, and no elastic-start or
requeue event has been recorded for it. -/
def UntouchedBy (jid : Nat) (st : CommitState) : Prop :=
  (execIds st.queue).Nodup ∧ (execIds st.candidates).Nodup ∧
  jid ∉ execIds st.queue_running ∧
  Event.startElasticEv jid ∉ st.events ∧
  Event.requeueEv jid ∉ st.events

/-- The discarded outcome for a given job id: gone from the pending queue,
the candidates and the running queue; its lock was released after the fatal
start; it was never elastically started nor re-queued. -/
def DiscardedIn (jid : Nat) (st : CommitState) : Prop :=
  jid ∉ execIds st.queue ∧ jid ∉ execIds st.candidates ∧
  jid ∉ execIds st.queue_running ∧
  Event.startEssentialEv jid StartResult.fatal ∈ st.events ∧
  Event.releaseLockEv jid ∈ st.events ∧
  Event.startElasticEv jid ∉ st.events ∧
  Event.requeueEv jid ∉ st.events

/-! ## Queue-size refresh and scheduler statistics -/

/-- The body of the DYNSIZE `for` loop of `_refresh_execution_sizes`
(lines 156–164) for one queued execution: look up its
`additional_exec_state` entry (a missing entry is the `KeyError` the Python
raises, modelled as `none`); untouched when never scheduled; reset to
`cores.min × memory.min` when the size is already ≤ 0; otherwise decayed by
`(now − last_time_scheduled) × 256 MiB`. -/
def refreshOne (st : List (Nat × ExecutionProgress)) (now : ℚ)
    (e : Execution) : Option Execution :=
  match lookupA st e.id with
  | none => none
  | some exec_data =>
      if exec_data.last_time_scheduled = 0 then some e
      else if e.size ≤ 0 then
        some { e with size := e.total_reservations.cores.min
            * e.total_reservations.memory.min }
      else
        some { e with size := e.size
            - (now - exec_data.last_time_scheduled) * (256 * 1024 ^ 2) }

/-- `_refresh_execution_sizes` (lines 150–164): FIFO and SIZE return with
the queue untouched; DYNSIZE updates each queued execution in order. -/
def refreshExecutionSizes (policy : Policy) (queue : List Execution)
    (st : List (Nat × ExecutionProgress)) (now : ℚ) :
    Option (List Execution) :=
  match policy with
  | Policy.FIFO => some queue
  | Policy.SIZE => some queue
  | Policy.DYNSIZE => queue.mapM (refreshOne st now)

/-- The record returned by `stats()` (lines 304–317). -/
structure SchedStats where
  queue_length : Nat
  running_length : Nat
  termination_threads_count : Nat
  queue : List Nat
  running_queue : List Nat
deriving DecidableEq, Repr

/-- `stats()`: queue and running-queue lengths, outstanding async
termination threads, and the two id lists; the pending ids are listed from
a size-sorted copy only under the SIZE policy (`sorted` is stable and
non-mutating, modelled by `mergeSort`). -/
def statsOf (policy : Policy) (queue queue_running : List Execution)
    (async_count : Nat) : SchedStats :=
  let q := if policy = Policy.SIZE then
      queue.mergeSort fun a b => decide (a.size ≤ b.size)
    else queue
  { queue_length := queue.length,
    running_length := queue_running.length,
    termination_threads_count := async_count,
    queue := q.map Execution.id,
    running_queue := queue_running.map Execution.id }

/-! ## Core-limit rebalancer

`_adjust_core_limits`, lines 319–345: one wake-up cycle reads a cluster
snapshot and, per node, redistributes the unreserved cores equally across
the started services of the node by calling
`update_service_resource_limits(service, cores=...)`. -/

/-- One node of the cluster statistics snapshot (`NodeStats`). -/
structure NodeStats where
  name : String
  cores_total : ℚ
  cores_reserved : ℚ
  memory_total : ℚ
  memory_reserved : ℚ
deriving DecidableEq, Repr

/-- The cluster statistics snapshot (`ClusterStats`). -/
structure ClusterStats where
  nodes : List NodeStats
deriving DecidableEq, Repr

/-- One `update_service_resource_limits` call issued by the rebalancer. The
source passes only `cores=...`; an absent `memory` field means the memory
limit is left unchanged. -/
structure LimitUpdate where
  service_id : Nat
  cores : ℚ
  memory : Option ℚ
deriving DecidableEq, Repr

/-- `self.state.services.select(backend_host=node.name,
backend_status=Service.BACKEND_START_STATUS)`: the services of the state
store hosted on the node with backend status `start`. -/
def selectNodeServices (db : List Service) (nodeName : String) :
    List Service :=
  db.filter fun s =>
    s.backend_host == some nodeName
      && s.backend_status == BackendStatus.start

/-- Lookup in the `new_core_allocations` dict (first binding wins; the dict
is built front-insertion so the first binding is the last write). The
default is never reached: the rebalancer looks up only keys it inserted. -/
def lookupCores (d : List (Nat × ℚ)) (k : Nat) : ℚ :=
  match d with
  | [] => 0
  | (k', v) :: rest => if k' = k then v else lookupCores rest k

/-- The body of the per-node `for` loop of `_adjust_core_limits` (lines
328–343): build `new_core_allocations` from the started services' minimum
core reservations, skip the node if it has none, compute `cores_to_add` and
issue one resource-limit update per service. -/
def adjustNode (db : List Service) (node : NodeStats) : List LimitUpdate :=
  let node_services := selectNodeServices db node.name
  if node_services.length = 0 then []
  else
    let new_core_allocations := node_services.foldl
      (fun d s => (s.id, s.resource_reservation.cores.min) :: d) []
    let cores_to_add : ℚ :=
      if node.cores_reserved < node.cores_total then
        (node.cores_total - node.cores_reserved) / node_services.length
      else 0
    node_services.map fun s =>
      ⟨s.id, lookupCores new_core_allocations s.id + cores_to_add, none⟩

/-- One full rebalancer cycle: every node of the snapshot in order. -/
def adjustCoreLimits (db : List Service) (stats : ClusterStats) :
    List LimitUpdate :=
  (stats.nodes.map (adjustNode db)).flatten

/-! ## Sample data

Small concrete instances used to evaluate the definitions at particular
inputs. -/

/-- A sample empty node with 8 memory units. -/
def wNode : SimNode := { name := "n1", memory_total := 8, memory_reserved := 0 }

/-- A sample essential service reserving 2 memory units. -/
def wService : Service :=
  { id := 10, name := "s", essential := true,
    backend_status := BackendStatus.undefined, backend_host := none,
    resource_reservation := { cores := ⟨1, 1⟩, memory := ⟨2, 4⟩ } }

/-- A sample execution holding only `wService`. -/
def wExec : Execution :=
  { id := 1, status := ExecStatus.scheduled, size := 0,
    services := [wService],
    total_reservations := { cores := ⟨1, 1⟩, memory := ⟨2, 4⟩ } }

/-- A sample platform with the single node `wNode`. -/
def wPlat : SimulatedPlatform := { nodes := [wNode], placements := [] }

/-- A sample node statistic: 8 cores total, 4 reserved (spec scenario 6). -/
def wStatNode : NodeStats :=
  { name := "n1", cores_total := 8, cores_reserved := 4,
    memory_total := 64, memory_reserved := 0 }

/-- A sample started service on node n1 with one core minimum. -/
def mkStartedService (i : Nat) : Service :=
  { id := i, name := "svc", essential := false,
    backend_status := BackendStatus.start, backend_host := some "n1",
    resource_reservation := { cores := ⟨1, 2⟩, memory := ⟨1, 1⟩ } }

/-- A sample service table: four started services on node n1. -/
def wDb : List Service :=
  [mkStartedService 1, mkStartedService 2, mkStartedService 3,
   mkStartedService 4]

/-- A sample queued execution with a large size. -/
def wExecBig : Execution :=
  { id := 1, status := ExecStatus.submitted, size := 100, services := [],
    total_reservations := { cores := ⟨2, 2⟩, memory := ⟨3, 3⟩ } }

/-- A sample queued execution with a small size. -/
def wExecSmall : Execution :=
  { id := 2, status := ExecStatus.submitted, size := 10, services := [],
    total_reservations := { cores := ⟨1, 1⟩, memory := ⟨1, 1⟩ } }

/-- A sample queued execution whose size just exceeds one decay step. -/
def wExecDecay : Execution :=
  { id := 3, status := ExecStatus.submitted, size := 268435457,
    services := [],
    total_reservations := { cores := ⟨2, 2⟩, memory := ⟨3, 3⟩ } }

/-- A sample progress entry last scheduled at time 1. -/
def wProgress : ExecutionProgress :=
  { last_time_scheduled := 1, progress_sequence := [] }

/-- A sample non-essential service reported dead by the backend. -/
def mkDeadElasticService (i : Nat) : Service :=
  { id := i, name := "els", essential := false,
    backend_status := BackendStatus.die, backend_host := some "n1",
    resource_reservation := { cores := ⟨1, 1⟩, memory := ⟨1, 1⟩ } }

/-- A sample running execution whose only service is a dead elastic one. -/
def mkDeadElasticExec (i sid : Nat) : Execution :=
  { id := i, status := ExecStatus.running, size := 0,
    services := [mkDeadElasticService sid],
    total_reservations := { cores := ⟨1, 1⟩, memory := ⟨1, 1⟩ } }

/-- A sample scheduler state with two consecutive running executions whose
elastic services both died. -/
def wTwoDeadState : SchedulerState :=
  { policy := Policy.FIFO, queue := [],
    queue_running := [mkDeadElasticExec 1 11, mkDeadElasticExec 2 21],
    additional_exec_state :=
      [(1, ExecutionProgress.init), (2, ExecutionProgress.init)],
    async_threads := 0, core_limit_recalc_trigger := false,
    trigger_count := 0, events := [] }

/-- A sample scheduler state as left by construction-time recovery of a
fully-running execution (no progress entry) whose elastic service has since
died. -/
def wOrphanState : SchedulerState :=
  { policy := Policy.FIFO, queue := [],
    queue_running := [mkDeadElasticExec 5 51],
    additional_exec_state := [],
    async_threads := 0, core_limit_recalc_trigger := false,
    trigger_count := 0, events := [] }

/-- A sample empty scheduler state. -/
def wEmptyState : SchedulerState :=
  { policy := Policy.FIFO, queue := [], queue_running := [],
    additional_exec_state := [], async_threads := 0,
    core_limit_recalc_trigger := false, trigger_count := 0, events := [] }

/-- A sample queued execution whose essential start will be fatal. -/
def wFatalExec : Execution :=
  { id := 7, status := ExecStatus.scheduled, size := 0, services := [],
    total_reservations := { cores := ⟨1, 1⟩, memory := ⟨1, 1⟩ } }

/-- A sample commit state holding `wFatalExec` in the pending queue and the
candidate list. -/
def wCommitState : CommitState :=
  { queue := [wFatalExec], queue_running := [], candidates := [wFatalExec],
    additional_exec_state := [(7, ExecutionProgress.init)],
    core_limit_recalc_trigger := false, events := [] }

/-- The commit state after the fatal-discard round on `wCommitState`. -/
def wCommitResult : CommitState :=
  { queue := [], queue_running := [], candidates := [],
    additional_exec_state := [(7, ExecutionProgress.init)],
    core_limit_recalc_trigger := true,
    events := [Event.startEssentialEv 7 StartResult.fatal,
               Event.releaseLockEv 7] }

end Zoe

namespace Zoe

/-! ## Theorems -/

/-- Helper: the trace of recorded free-memory values of `placementInner` is
a strictly decreasing chain below the incoming `free_resources`. -/
theorem placementInner_trace_chain (cands : List Execution)
    (sim : SimulatedPlatform) (jtl : List Execution) (free : ℚ) :
    List.Chain (fun a b => b < a) free
      (placementInner sim jtl free cands).2.2.2 := by
  induction cands generalizing sim jtl free with
  | nil => simp [placementInner]
  | cons job rest ih =>
      rw [placementInner]
      simp only [apply_ite (fun r : SimulatedPlatform × List Execution × ℚ × List ℚ => r.2.2.2)]
      split_ifs <;>
        first
          | exact List.Chain.nil
          | (rename_i hlt
             push_neg at hlt
             exact List.Chain.cons hlt (ih _ _ _))

/-- C1: in the inner placement round, each candidate iteration either hits
the "no progress" guard (free memory did not shrink: revert to the snapshot
of `jobs_to_launch` and stop) or records a strictly smaller aggregated free
memory; consequently the recorded free-memory values — starting from the
free memory before any candidate — form a strictly decreasing chain, so
aggregated free memory strictly decreases across each accepted candidate. -/
theorem placement_free_memory_strictly_decreases
    (sim : SimulatedPlatform) (cands : List Execution) :
    List.Chain (fun a b => b < a) sim.aggregated_free_memory
      (tryPlacement sim cands).2.2.2 :=
  placementInner_trace_chain cands sim [] sim.aggregated_free_memory

/-- Helper: `chooseBetter` returns the previous best or the candidate. -/
theorem chooseBetter_some (m : ℚ) (acc : Option SimNode) (x n : SimNode)
    (h : SimulatedPlatform.chooseBetter m acc x = some n) :
    acc = some n ∨ n = x := by
  unfold SimulatedPlatform.chooseBetter at h
  split at h
  · cases acc with
    | none => simp at h; exact Or.inr h.symm
    | some b =>
        simp only at h
        split at h
        · simp at h; exact Or.inr h.symm
        · simp at h; exact Or.inl (by rw [h])
  · exact Or.inl h

/-- Helper: a node chosen by `chooseNode` is one of the nodes. -/
theorem chooseNode_mem (nodes : List SimNode) (m : ℚ) (n : SimNode)
    (h : SimulatedPlatform.chooseNode nodes m = some n) : n ∈ nodes := by
  have aux : ∀ (l : List SimNode) (acc : Option SimNode),
      l.foldl (SimulatedPlatform.chooseBetter m) acc = some n →
      acc = some n ∨ n ∈ l := by
    intro l
    induction l with
    | nil => intro acc h'; exact Or.inl h'
    | cons x xs ih =>
        intro acc h'
        rw [List.foldl_cons] at h'
        rcases ih _ h' with h'' | h''
        · rcases chooseBetter_some m acc x n h'' with h3 | h3
          · exact Or.inl h3
          · exact Or.inr (h3 ▸ List.mem_cons_self x xs)
        · exact Or.inr (List.mem_cons_of_mem x h'')
  rcases aux nodes none h with h' | h'
  · simp at h'
  · exact h'

/-- Helper: reserving `m` memory on a present node lowers the summed free
memory by exactly `m`. -/
theorem reserveOn_freeSum (nodes : List SimNode) (nm : String) (m : ℚ)
    (h : nm ∈ nodes.map SimNode.name) :
    ((SimulatedPlatform.reserveOn nodes nm m).map
        fun n => n.memory_total - n.memory_reserved).sum
      = ((nodes.map fun n => n.memory_total - n.memory_reserved).sum) - m := by
  induction nodes with
  | nil => simp at h
  | cons x xs ih =>
      rw [SimulatedPlatform.reserveOn]
      by_cases hx : x.name = nm
      · rw [if_pos hx]
        simp only [List.map_cons, List.sum_cons]
        ring
      · rw [if_neg hx]
        simp only [List.map_cons, List.mem_cons] at h
        rcases h with h | h
        · exact absurd h.symm hx
        · simp only [List.map_cons, List.sum_cons, ih h]
          ring

/-- Helper: a successful `placeService` deducts exactly the service's
minimum memory from the aggregated free memory and appends exactly one
placement record for the service. -/
theorem placeService_spec (p : SimulatedPlatform) (eid : Nat) (s : Service)
    (el : Bool) (p' : SimulatedPlatform)
    (h : SimulatedPlatform.placeService p eid s el = some p') :
    p'.aggregated_free_memory
        = p.aggregated_free_memory - s.resource_reservation.memory.min ∧
    ∃ nm, p'.placements = p.placements ++
      [⟨s.id, eid, nm, s.resource_reservation.memory.min, el⟩] := by
  unfold SimulatedPlatform.placeService at h
  cases hc : SimulatedPlatform.chooseNode p.nodes
      s.resource_reservation.memory.min with
  | none => rw [hc] at h; simp at h
  | some n =>
      rw [hc] at h
      simp only [Option.map_some'] at h
      injection h with h
      have hmem : n.name ∈ p.nodes.map SimNode.name :=
        List.mem_map_of_mem SimNode.name (chooseNode_mem _ _ _ hc)
      constructor
      · rw [← h]
        exact reserveOn_freeSum p.nodes n.name
          s.resource_reservation.memory.min hmem
      · exact ⟨n.name, by rw [← h]⟩

/-- Helper: when the essential-placement worker returns `false`, it returns
the original (rolled-back) platform. -/
theorem allocEssGo_false (p : SimulatedPlatform) (e : Execution) :
    ∀ (l : List Service) (acc : SimulatedPlatform),
      (SimulatedPlatform.allocate_essential.go p e acc l).1 = false →
      (SimulatedPlatform.allocate_essential.go p e acc l).2 = p := by
  intro l
  induction l with
  | nil =>
      intro acc h
      simp [SimulatedPlatform.allocate_essential.go] at h
  | cons s rest ih =>
      intro acc h
      rw [SimulatedPlatform.allocate_essential.go] at h ⊢
      cases hps : SimulatedPlatform.placeService acc e.id s false with
      | none => rfl
      | some acc' =>
          rw [hps] at h
          exact ih acc' h

/-- Helper: when the essential-placement worker returns `true`, the
aggregated free memory shrank by the sum of the minimum memory reservations
of the placed services, previously recorded placements survive, and every
placed service has a non-elastic placement record. -/
theorem allocEssGo_true (p : SimulatedPlatform) (e : Execution) :
    ∀ (l : List Service) (acc : SimulatedPlatform),
      (SimulatedPlatform.allocate_essential.go p e acc l).1 = true →
      ((SimulatedPlatform.allocate_essential.go p e acc l).2.aggregated_free_memory
          = acc.aggregated_free_memory
            - (l.map fun s => s.resource_reservation.memory.min).sum) ∧
      (∀ pl ∈ acc.placements,
        pl ∈ (SimulatedPlatform.allocate_essential.go p e acc l).2.placements) ∧
      (∀ s ∈ l, ∃ pl ∈ (SimulatedPlatform.allocate_essential.go p e acc l).2.placements,
        pl.service_id = s.id ∧ pl.execution_id = e.id ∧ pl.elastic = false) := by
  intro l
  induction l with
  | nil =>
      intro acc _
      refine ⟨by simp [SimulatedPlatform.allocate_essential.go], ?_, by simp⟩
      intro pl hpl
      simpa [SimulatedPlatform.allocate_essential.go] using hpl
  | cons s rest ih =>
      intro acc h
      rw [SimulatedPlatform.allocate_essential.go] at h ⊢
      cases hps : SimulatedPlatform.placeService acc e.id s false with
      | none => rw [hps] at h; simp at h
      | some acc' =>
          rw [hps] at h
          obtain ⟨hagg, hnm⟩ := placeService_spec acc e.id s false acc' hps
          obtain ⟨ih1, ih2, ih3⟩ := ih acc' h
          refine ⟨?_, ?_, ?_⟩
          · rw [ih1, hagg]
            simp only [List.map_cons, List.sum_cons]
            ring
          · intro pl hpl
            obtain ⟨nm, hplc⟩ := hnm
            exact ih2 pl (by rw [hplc]; exact List.mem_append_left _ hpl)
          · intro t ht
            rcases List.mem_cons.mp ht with ht | ht
            · obtain ⟨nm, hplc⟩ := hnm
              refine ⟨⟨s.id, e.id, nm, s.resource_reservation.memory.min, false⟩,
                ih2 _ (by rw [hplc]; exact List.mem_append_right _ (by simp)), ?_⟩
              subst ht
              exact ⟨rfl, rfl, rfl⟩
            · exact ih3 t ht

/-- Helper: building the `new_core_allocations` dict by front-insertion
equals the reversed list of (id, min-cores) pairs. -/
theorem buildAlloc_eq (l : List Service) (acc : List (Nat × ℚ)) :
    l.foldl (fun d s => (s.id, s.resource_reservation.cores.min) :: d) acc
      = (l.map fun s => (s.id, s.resource_reservation.cores.min)).reverse
          ++ acc := by
  induction l generalizing acc with
  | nil => simp
  | cons s rest ih => simp [ih]

/-- Helper: dict lookup skips a block without the key. -/
theorem lookupCores_append_of_not_mem (a b : List (Nat × ℚ)) (k : Nat)
    (h : k ∉ a.map Prod.fst) :
    lookupCores (a ++ b) k = lookupCores b k := by
  induction a with
  | nil => rfl
  | cons x rest ih =>
      simp only [List.map_cons, List.mem_cons] at h
      push_neg at h
      rw [List.cons_append, lookupCores, if_neg (fun hx => h.1 hx.symm)]
      exact ih h.2

/-- Helper: dict lookup stays in a block holding the key. -/
theorem lookupCores_append_left (a b : List (Nat × ℚ)) (k : Nat)
    (h : k ∈ a.map Prod.fst) :
    lookupCores (a ++ b) k = lookupCores a k := by
  induction a with
  | nil => simp at h
  | cons x rest ih =>
      rw [List.cons_append, lookupCores, lookupCores]
      by_cases hx : x.1 = k
      · rw [if_pos hx, if_pos hx]
      · rw [if_neg hx, if_neg hx]
        apply ih
        simp only [List.map_cons, List.mem_cons] at h
        exact h.resolve_left (fun hk => hx hk.symm)

/-- Helper: with pairwise-distinct service ids, the dict lookup of a
selected service returns that service's own minimum core reservation. -/
theorem lookupAlloc_self (l : List Service) (s : Service)
    (hnd : (l.map Service.id).Nodup) (hs : s ∈ l) :
    lookupCores
        ((l.map fun t => (t.id, t.resource_reservation.cores.min)).reverse)
        s.id
      = s.resource_reservation.cores.min := by
  induction l with
  | nil => simp at hs
  | cons t rest ih =>
      simp only [List.map_cons, List.reverse_cons]
      rcases List.mem_cons.mp hs with rfl | hs'
      · have hno : s.id ∉ rest.map Service.id :=
          (List.nodup_cons.mp hnd).1
        rw [lookupCores_append_of_not_mem]
        · simp [lookupCores]
        · simpa using hno
      · have hnd' := (List.nodup_cons.mp hnd).2
        have hkey : s.id ∈
            ((rest.map fun t =>
                (t.id, t.resource_reservation.cores.min)).reverse).map
              Prod.fst := by
          simp only [List.map_reverse, List.map_map, List.mem_reverse,
            List.mem_map, Function.comp]
          exact ⟨s, hs', rfl⟩
        rw [lookupCores_append_left _ _ _ hkey]
        exact ih hnd' hs'

/-- Helper: characterization of `adjustNode` under distinct service ids:
one update per started service, cores = own minimum + equal share of the
free cores. -/
theorem adjustNode_eq (db : List Service) (node : NodeStats)
    (hnd : ((selectNodeServices db node.name).map Service.id).Nodup) :
    adjustNode db node
      = (selectNodeServices db node.name).map fun s =>
          ⟨s.id, s.resource_reservation.cores.min
              + (if node.cores_reserved < node.cores_total then
                  (node.cores_total - node.cores_reserved)
                    / (selectNodeServices db node.name).length
                else 0), none⟩ := by
  unfold adjustNode
  by_cases hlen : (selectNodeServices db node.name).length = 0
  · rw [if_pos hlen]
    rw [List.length_eq_zero] at hlen
    simp [hlen]
  · rw [if_neg hlen, buildAlloc_eq, List.append_nil]
    apply List.map_congr_left
    intro s hs
    rw [lookupAlloc_self _ s hnd hs]

/-- Helper: summing a per-element value plus a constant. -/
theorem sum_map_add_const (l : List Service) (g : Service → ℚ) (c : ℚ) :
    (l.map fun s => g s + c).sum = (l.map g).sum + l.length * c := by
  induction l with
  | nil => simp
  | cons s rest ih =>
      simp only [List.map_cons, List.sum_cons, List.length_cons, ih]
      push_cast
      ring

/-- C2: per node of one rebalancer cycle — a node without started services
is skipped; otherwise each started service of the node is issued an update
with cores = its own `resource_reservation.cores.min` plus
`(cores_total − cores_reserved) / count` when `cores_reserved < cores_total`
and plus 0 otherwise; no update ever carries a memory limit. -/
theorem rebalancer_updates_per_node (db : List Service) (node : NodeStats) :
    (selectNodeServices db node.name = [] → adjustNode db node = []) ∧
    (∀ u ∈ adjustNode db node, u.memory = none) ∧
    (((selectNodeServices db node.name).map Service.id).Nodup →
      adjustNode db node
        = (selectNodeServices db node.name).map fun s =>
            ⟨s.id, s.resource_reservation.cores.min
                + (if node.cores_reserved < node.cores_total then
                    (node.cores_total - node.cores_reserved)
                      / (selectNodeServices db node.name).length
                  else 0), none⟩) := by
  refine ⟨?_, ?_, adjustNode_eq db node⟩
  · intro h
    unfold adjustNode
    simp [h]
  · intro u hu
    unfold adjustNode at hu
    by_cases hlen : (selectNodeServices db node.name).length = 0
    · rw [if_pos hlen] at hu
      simp at hu
    · rw [if_neg hlen] at hu
      obtain ⟨s, _, rfl⟩ := List.mem_map.mp hu
      rfl

/-- Witness for C2 at a concrete input (spec scenario 6): a node with 8
cores total and 4 reserved hosting four started services of minimum 1 core
each gets each service issued 1 + (8−4)/4 = 2 cores, memory untouched. -/
theorem rebalancer_updates_per_node_witness :
    adjustNode wDb wStatNode
      = [⟨1, 2, none⟩, ⟨2, 2, none⟩, ⟨3, 2, none⟩, ⟨4, 2, none⟩] := by
  have hnd : ((selectNodeServices wDb wStatNode.name).map Service.id).Nodup := by
    norm_num [selectNodeServices, wDb, mkStartedService, wStatNode]
  rw [(rebalancer_updates_per_node wDb wStatNode).2.2 hnd]
  norm_num [selectNodeServices, wDb, mkStartedService, wStatNode]

/-- C7: per node, under the snapshot invariants (the started services'
summed minimum core reservations do not exceed the reserved cores, reserved
cores do not exceed total cores, reservations are nonnegative, service ids
are distinct), the total cores issued by the rebalancer is at most the
node's total cores, and no single issued update exceeds the total. -/
theorem rebalancer_within_total (db : List Service) (node : NodeStats)
    (hsum : (((selectNodeServices db node.name).map
        fun s => s.resource_reservation.cores.min).sum) ≤ node.cores_reserved)
    (hrt : node.cores_reserved ≤ node.cores_total)
    (hpos : ∀ s ∈ selectNodeServices db node.name,
        0 ≤ s.resource_reservation.cores.min)
    (hnd : ((selectNodeServices db node.name).map Service.id).Nodup) :
    (((adjustNode db node).map LimitUpdate.cores).sum ≤ node.cores_total) ∧
    (∀ u ∈ adjustNode db node, u.cores ≤ node.cores_total) := by
  rw [adjustNode_eq db node hnd]
  set sel := selectNodeServices db node.name with hsel
  set c : ℚ := (if node.cores_reserved < node.cores_total then
      (node.cores_total - node.cores_reserved) / (sel.length : ℚ)
    else 0) with hc
  have hrw : ((sel.map fun s =>
      (⟨s.id, s.resource_reservation.cores.min + c, none⟩ : LimitUpdate)).map
        LimitUpdate.cores)
      = sel.map fun s => s.resource_reservation.cores.min + c := by
    rw [List.map_map]
    rfl
  have hTc : (sel.length : ℚ) * c ≤ node.cores_total - node.cores_reserved := by
    by_cases hres : node.cores_reserved < node.cores_total
    · rw [hc, if_pos hres]
      rcases Nat.eq_zero_or_pos sel.length with h0 | hposl
      · rw [h0]
        push_cast
        rw [zero_mul]
        linarith
      · have hne : (sel.length : ℚ) ≠ 0 := by
          exact_mod_cast Nat.pos_iff_ne_zero.mp hposl
        rw [mul_div_cancel₀ _ hne]
    · rw [hc, if_neg hres]
      rw [mul_zero]
      linarith
  constructor
  · rw [hrw, sum_map_add_const]
    linarith
  · intro u hu
    obtain ⟨s, hs, rfl⟩ := List.mem_map.mp hu
    have hnonneg : ∀ x ∈ sel.map fun s => s.resource_reservation.cores.min,
        0 ≤ x := by
      intro x hx
      obtain ⟨t, ht, rfl⟩ := List.mem_map.mp hx
      exact hpos t ht
    have h1 : s.resource_reservation.cores.min
        ≤ (sel.map fun s => s.resource_reservation.cores.min).sum :=
      List.single_le_sum hnonneg _
        (List.mem_map_of_mem _ hs)
    have h2 : c ≤ node.cores_total - node.cores_reserved := by
      by_cases hres : node.cores_reserved < node.cores_total
      · rw [hc, if_pos hres]
        have hone : (1 : ℚ) ≤ (sel.length : ℚ) := by
          exact_mod_cast Nat.one_le_iff_ne_zero.mpr
            (List.length_pos.mpr (List.ne_nil_of_mem hs)).ne'
        exact div_le_self (by linarith) hone
      · rw [hc, if_neg hres]
        linarith
    show s.resource_reservation.cores.min + c ≤ node.cores_total
    linarith

/-- Witness for C7 at a concrete input (spec scenario 6): with four started
1-core-minimum services on a node with 8 cores total and 4 reserved, the
issued total is within the node's 8 cores and so is each single update. -/
theorem rebalancer_within_total_witness :
    (((adjustNode wDb wStatNode).map LimitUpdate.cores).sum
        ≤ wStatNode.cores_total) ∧
    (∀ u ∈ adjustNode wDb wStatNode, u.cores ≤ wStatNode.cores_total) := by
  apply rebalancer_within_total wDb wStatNode
  · norm_num [selectNodeServices, wDb, mkStartedService, wStatNode]
  · norm_num [wStatNode]
  · intro s hs
    norm_num [selectNodeServices, wDb, mkStartedService, wStatNode] at hs
    rcases hs with rfl | rfl | rfl | rfl <;>
      norm_num [mkStartedService]
  · norm_num [selectNodeServices, wDb, mkStartedService, wStatNode]

/-- C8: `SimulatedPlatform.allocate_essential` is all-or-nothing: when it
returns false the simulator state is exactly the original one (so
`aggregated_free_memory()` is unchanged), and when it returns true every
essential service of the execution has a recorded non-elastic placement and
the aggregated free memory dropped by the sum of the essential services'
minimum memory reservations. -/
theorem allocate_essential_all_or_nothing (p : SimulatedPlatform)
    (e : Execution) :
    ((p.allocate_essential e).1 = false → (p.allocate_essential e).2 = p) ∧
    ((p.allocate_essential e).1 = true →
      (p.allocate_essential e).2.aggregated_free_memory
          = p.aggregated_free_memory
            - (((e.services.filter fun s => s.essential).map
                fun s => s.resource_reservation.memory.min).sum) ∧
      ∀ s ∈ e.services, s.essential →
        ∃ pl ∈ (p.allocate_essential e).2.placements,
          pl.service_id = s.id ∧ pl.execution_id = e.id ∧
          pl.elastic = false) := by
  constructor
  · intro h
    exact allocEssGo_false p e _ p h
  · intro h
    obtain ⟨h1, _, h3⟩ := allocEssGo_true p e
      (e.services.filter fun s => s.essential) p h
    refine ⟨h1, ?_⟩
    intro s hs hess
    exact h3 s (List.mem_filter.mpr ⟨hs, by simpa using hess⟩)

/-- Witness for C8 at a concrete input: on `wPlat` (one empty node with 8
memory units) allocating the essentials of `wExec` (one essential service
with 2 memory units minimum) succeeds and leaves 6 units free. -/
theorem allocate_essential_all_or_nothing_witness :
    (wPlat.allocate_essential wExec).1 = true ∧
    (wPlat.allocate_essential wExec).2.aggregated_free_memory = 6 := by
  have ht : (wPlat.allocate_essential wExec).1 = true := by
    norm_num [wPlat, wNode, wExec, wService,
      SimulatedPlatform.allocate_essential,
      SimulatedPlatform.allocate_essential.go,
      SimulatedPlatform.placeService, SimulatedPlatform.chooseNode,
      SimulatedPlatform.chooseBetter, SimulatedPlatform.nodeFits]
  have h := allocate_essential_all_or_nothing wPlat wExec
  refine ⟨ht, ?_⟩
  rw [(h.2 ht).1]
  norm_num [wPlat, wNode, wExec, wService,
    SimulatedPlatform.aggregated_free_memory]

/-- C3: `_refresh_execution_sizes` leaves the queue untouched under FIFO
and SIZE; under DYNSIZE (when every queued execution has a progress entry,
otherwise the Python raises `KeyError`) each execution is mapped as the
source does: untouched when `last_time_scheduled = 0`, reset to
`cores.min × memory.min` when its size is ≤ 0 at the point of processing,
otherwise decayed by `(now − last_time_scheduled) × 256 MiB`. -/
theorem refresh_execution_sizes_spec (queue : List Execution)
    (st : List (Nat × ExecutionProgress)) (now : ℚ) :
    refreshExecutionSizes Policy.FIFO queue st now = some queue ∧
    refreshExecutionSizes Policy.SIZE queue st now = some queue ∧
    ((∀ e ∈ queue, (lookupA st e.id).isSome) →
      refreshExecutionSizes Policy.DYNSIZE queue st now
        = some (queue.map fun e =>
            match lookupA st e.id with
            | none => e
            | some exec_data =>
                if exec_data.last_time_scheduled = 0 then e
                else if e.size ≤ 0 then
                  { e with size := e.total_reservations.cores.min
                      * e.total_reservations.memory.min }
                else
                  { e with size := e.size
                      - (now - exec_data.last_time_scheduled)
                        * (256 * 1024 ^ 2) })) := by
  refine ⟨rfl, rfl, ?_⟩
  simp only [refreshExecutionSizes]
  induction queue with
  | nil => intro _; rfl
  | cons e rest ih =>
      intro h
      obtain ⟨pr, hpr⟩ := Option.isSome_iff_exists.mp
        (h e (List.mem_cons_self e rest))
      have hrest := ih fun x hx => h x (List.mem_cons_of_mem e hx)
      simp only [List.mapM_cons, List.map_cons, hrest, refreshOne, hpr]
      split_ifs <;> simp

/-- Witness for C3 at a concrete input: under DYNSIZE an execution of size
256·1024² + 1 last scheduled at time 1, refreshed at time 2, decays to
size 1. -/
theorem refresh_execution_sizes_spec_witness :
    refreshExecutionSizes Policy.DYNSIZE [wExecDecay] [(3, wProgress)] 2
      = some [{ wExecDecay with size := 1 }] := by
  have hh : ∀ e ∈ [wExecDecay], (lookupA [(3, wProgress)] e.id).isSome := by
    decide
  have h := (refresh_execution_sizes_spec [wExecDecay] [(3, wProgress)] 2).2.2 hh
  rw [h]
  norm_num [lookupA, wProgress, wExecDecay]

/-- Counterexample to C9 as stated: under the DYNSIZE policy `stats()`
returns the pending ids in insertion order, not sorted ascending by size —
with the queue `[wExecBig (id 1, size 100), wExecSmall (id 2, size 10)]` it
returns `[1, 2]`, while ascending-size order would put id 2 first. -/
theorem stats_dynsize_not_sorted :
    (statsOf Policy.DYNSIZE [wExecBig, wExecSmall] [] 0).queue = [1, 2] ∧
    (statsOf Policy.DYNSIZE [wExecBig, wExecSmall] [] 0).queue
        ≠ [wExecSmall.id, wExecBig.id] ∧
    wExecSmall.size < wExecBig.size ∧
    wExecBig.id = 1 ∧ wExecSmall.id = 2 := by
  refine ⟨rfl, ?_, ?_, rfl, rfl⟩
  · intro hq
    simp [statsOf, wExecBig, wExecSmall] at hq
  · norm_num [wExecBig, wExecSmall]

/-- C9 (amended): `stats()` returns the pending-queue length, the
running-queue length, the async-termination-thread count, the running ids
in order, and the pending ids from a size-sorted (stable, ascending) copy
under the SIZE policy only — under FIFO and DYNSIZE the pending ids are in
insertion order. -/
theorem stats_spec (policy : Policy) (queue running : List Execution)
    (n : Nat) :
    (statsOf policy queue running n).queue_length = queue.length ∧
    (statsOf policy queue running n).running_length = running.length ∧
    (statsOf policy queue running n).termination_threads_count = n ∧
    (statsOf policy queue running n).running_queue
        = running.map Execution.id ∧
    (policy = Policy.SIZE →
      (statsOf policy queue running n).queue
        = (queue.mergeSort fun a b =>
            decide (a.size ≤ b.size)).map Execution.id) ∧
    (policy ≠ Policy.SIZE →
      (statsOf policy queue running n).queue = queue.map Execution.id) := by
  refine ⟨rfl, rfl, rfl, rfl, ?_, ?_⟩
  · intro h
    simp [statsOf, h]
  · intro h
    simp [statsOf, h]

/-- Witness for C9 (amended) at a concrete input: under FIFO the pending
ids come back in insertion order. -/
theorem stats_spec_witness :
    (statsOf Policy.FIFO [wExecBig, wExecSmall] [] 0).queue = [1, 2] := by
  have h := (stats_spec Policy.FIFO [wExecBig, wExecSmall] [] 0).2.2.2.2.2
    (by decide)
  rw [h]
  simp [wExecBig, wExecSmall]

/-- Helper: `removeById` fails exactly on an absent id. -/
theorem removeById_eq_none (l : List Execution) (i : Nat) :
    removeById l i = none ↔ i ∉ execIds l := by
  induction l with
  | nil => simp [removeById, execIds]
  | cons e rest ih =>
      rw [removeById]
      by_cases he : e.id = i
      · rw [if_pos he]
        simp [execIds, he]
      · rw [if_neg he]
        simp only [execIds, List.map_cons, List.mem_cons]
        constructor
        · intro hm
          have : removeById rest i = none := by
            cases hx : removeById rest i with
            | none => rfl
            | some r => rw [hx] at hm; simp at hm
          intro hc
          rcases hc with hc | hc
          · exact he hc.symm
          · exact (ih.mp this) hc
        · intro hc
          push_neg at hc
          rw [ih.mpr hc.2]
          rfl

/-- Helper: `removeById` on a present id removes its first holder. -/
theorem removeById_of_mem (l : List Execution) (i : Nat)
    (h : i ∈ execIds l) :
    removeById l i = some (eraseById l i) := by
  induction l with
  | nil => simp [execIds] at h
  | cons e rest ih =>
      rw [removeById, eraseById]
      by_cases he : e.id = i
      · rw [if_pos he, if_pos he]
      · rw [if_neg he, if_neg he]
        have h' : i ∈ execIds rest := by
          simp only [execIds, List.map_cons, List.mem_cons] at h
          exact h.resolve_left fun hc => he hc.symm
        rw [ih h']
        rfl

/-- Helper: removing the freshly appended execution from a queue that did
not hold its id gives back the original queue. -/
theorem removeById_append_self (q : List Execution) (e : Execution)
    (h : e.id ∉ execIds q) :
    removeById (q ++ [e]) e.id = some q := by
  induction q with
  | nil => simp [removeById]
  | cons x rest ih =>
      simp only [execIds, List.map_cons, List.mem_cons] at h
      push_neg at h
      rw [List.cons_append, removeById,
        if_neg fun hc => h.1 hc.symm, ih h.2]
      rfl

/-- Helper: `eraseById` yields a sublist. -/
theorem eraseById_sublist (l : List Execution) (i : Nat) :
    (eraseById l i).Sublist l := by
  induction l with
  | nil => simp [eraseById]
  | cons e rest ih =>
      rw [eraseById]
      by_cases he : e.id = i
      · rw [if_pos he]
        exact List.sublist_cons_self e rest
      · rw [if_neg he]
        exact ih.cons₂ e

/-- Helper: with distinct ids, the erased id is gone. -/
theorem not_mem_execIds_eraseById (l : List Execution) (i : Nat)
    (h : (execIds l).Nodup) : i ∉ execIds (eraseById l i) := by
  induction l with
  | nil => simp [eraseById, execIds]
  | cons e rest ih =>
      rw [execIds, List.map_cons, List.nodup_cons] at h
      rw [eraseById]
      by_cases he : e.id = i
      · rw [if_pos he]
        exact he ▸ h.1
      · rw [if_neg he]
        simp only [execIds, List.map_cons, List.mem_cons]
        push_neg
        exact ⟨fun hc => he hc.symm, ih h.2⟩

/-- Helper: assigning a key makes it present. -/
theorem lookupA_setA_self (l : List (Nat × ExecutionProgress)) (k : Nat)
    (v : ExecutionProgress) : lookupA (setA l k v) k = some v := by
  induction l with
  | nil => simp [setA, lookupA]
  | cons x rest ih =>
      rw [setA]
      by_cases hx : x.1 = k
      · rw [if_pos hx, lookupA, if_pos rfl]
      · rw [if_neg hx, lookupA, if_neg hx]
        exact ih

/-- Helper: assigning a key leaves other keys alone. -/
theorem lookupA_setA_ne (l : List (Nat × ExecutionProgress)) (k k' : Nat)
    (v : ExecutionProgress) (h : k' ≠ k) :
    lookupA (setA l k v) k' = lookupA l k' := by
  induction l with
  | nil =>
      simp only [setA, lookupA]
      rw [if_neg fun hc => h hc.symm]
  | cons x rest ih =>
      rw [setA]
      by_cases hx : x.1 = k
      · rw [if_pos hx, lookupA, if_neg fun hc => h hc.symm, lookupA,
          if_neg fun hc => h (by rw [← hc]; exact hx)]
      · rw [if_neg hx, lookupA, lookupA]
        by_cases hx' : x.1 = k'
        · rw [if_pos hx', if_pos hx']
        · rw [if_neg hx', if_neg hx']
          exact ih

/-- Helper: deleting a key leaves other keys alone. -/
theorem lookupA_eraseA_ne (l : List (Nat × ExecutionProgress)) (k k' : Nat)
    (h : k' ≠ k) : lookupA (eraseA l k) k' = lookupA l k' := by
  induction l with
  | nil => rfl
  | cons x rest ih =>
      rw [eraseA]
      by_cases hx : x.1 = k
      · rw [if_pos hx, lookupA, if_neg fun hc => h (by rw [← hc]; exact hx)]
      · rw [if_neg hx, lookupA, lookupA]
        by_cases hx' : x.1 = k'
        · rw [if_pos hx', if_pos hx']
        · rw [if_neg hx', if_neg hx']
          exact ih

/-- Helper: an absent key looks up to nothing. -/
theorem lookupA_of_not_mem (l : List (Nat × ExecutionProgress)) (k : Nat)
    (h : k ∉ l.map Prod.fst) : lookupA l k = none := by
  induction l with
  | nil => rfl
  | cons x rest ih =>
      simp only [List.map_cons, List.mem_cons] at h
      push_neg at h
      rw [lookupA, if_neg fun hc => h.1 hc.symm]
      exact ih h.2

/-- Helper: with distinct keys, assigning then deleting a key leaves it
absent. -/
theorem lookupA_eraseA_setA_self (l : List (Nat × ExecutionProgress))
    (k : Nat) (v : ExecutionProgress) (h : (l.map Prod.fst).Nodup) :
    lookupA (eraseA (setA l k v) k) k = none := by
  induction l with
  | nil => simp [setA, eraseA, lookupA]
  | cons x rest ih =>
      rw [List.map_cons, List.nodup_cons] at h
      rw [setA]
      by_cases hx : x.1 = k
      · rw [if_pos hx, eraseA, if_pos rfl]
        exact lookupA_of_not_mem rest k (hx ▸ h.1)
      · rw [if_neg hx, eraseA, if_neg hx, lookupA, if_neg hx]
        exact ih h.2

/-- C6: for an execution absent from both queues (and a well-formed
progress dict), `incoming(e)` followed by `terminate(e)` restores both
queues exactly (the async thread count and triggers aside) and leaves no
progress entry for the execution. -/
theorem incoming_then_terminate (st : SchedulerState) (e : Execution)
    (h1 : e.id ∉ execIds st.queue) (h2 : e.id ∉ execIds st.queue_running)
    (h3 : (st.additional_exec_state.map Prod.fst).Nodup) :
    (terminate (incoming st e) e).queue = st.queue ∧
    (terminate (incoming st e) e).queue_running = st.queue_running ∧
    lookupA (terminate (incoming st e) e).additional_exec_state e.id
      = none := by
  unfold incoming terminate
  rw [removeById_append_self st.queue e h1]
  exact ⟨rfl, rfl, lookupA_eraseA_setA_self _ _ _ h3⟩

/-- Witness for C6 at a concrete input: on the empty scheduler state,
`incoming` then `terminate` of `wExecBig` leaves both queues empty and no
progress entry. -/
theorem incoming_then_terminate_witness :
    (terminate (incoming wEmptyState wExecBig) wExecBig).queue = [] ∧
    (terminate (incoming wEmptyState wExecBig) wExecBig).queue_running
      = [] ∧
    lookupA
      (terminate (incoming wEmptyState wExecBig) wExecBig).additional_exec_state
      wExecBig.id = none := by
  have h := incoming_then_terminate wEmptyState wExecBig
    (by simp [wEmptyState, execIds]) (by simp [wEmptyState, execIds])
    (by simp [wEmptyState])
  simpa [wEmptyState] using h

/-- C5 evaluated at the failing input: two consecutive running executions
both holding a dead elastic service. The sweep moves the first one to the
pending queue but — because `queue_running.remove` shifts the iterator past
the second — leaves the second untouched in the running queue with no
`terminate_service` call, contradicting the claim that every such
execution is rescheduled in this round. -/
theorem check_dead_services_skips_second :
    execIds (checkDeadServices wTwoDeadState).queue_running = [2] ∧
    execIds (checkDeadServices wTwoDeadState).queue = [1] ∧
    Event.terminateServiceEv 11 ∈ (checkDeadServices wTwoDeadState).events ∧
    Event.terminateServiceEv 21 ∉ (checkDeadServices wTwoDeadState).events := by
  refine ⟨?_, ?_, ?_, ?_⟩ <;> decide

/-- Helper: `terminate` on an execution whose id is not pending preserves
the sweep well-formedness. -/
theorem terminate_pres_WF (st : SchedulerState) (e : Execution)
    (hq : e.id ∉ execIds st.queue) (h : WFState st) :
    WFState (terminate st e) := by
  obtain ⟨hQ, hR, hD, hN⟩ := h
  unfold terminate
  rw [(removeById_eq_none st.queue e.id).mpr hq]
  cases hrm : removeById st.queue_running e.id with
  | none => exact ⟨hQ, hR, hD, hN⟩
  | some r =>
      have hmem : e.id ∈ execIds st.queue_running := by
        by_contra hc
        rw [(removeById_eq_none _ _).mpr hc] at hrm
        exact Option.noConfusion hrm
      rw [removeById_of_mem _ _ hmem] at hrm
      injection hrm with hr
      subst hr
      refine ⟨?_, ?_, ?_, ?_⟩
      · intro x hx
        have hxid : x.id ≠ e.id := fun hh =>
          hq (hh ▸ List.mem_map_of_mem Execution.id hx)
        dsimp only [terminateMark]
        rw [lookupA_eraseA_ne _ _ _ hxid]
        exact hQ x hx
      · intro x hx
        dsimp only [terminateMark] at hx ⊢
        have hxl : x ∈ st.queue_running := (eraseById_sublist _ _).subset hx
        have hxid : x.id ≠ e.id := by
          intro hh
          exact not_mem_execIds_eraseById _ _ hN
            (hh ▸ List.mem_map_of_mem Execution.id hx)
        rw [lookupA_eraseA_ne _ _ _ hxid]
        exact hR x hxl
      · intro i hi hcon
        dsimp only [terminateMark] at hi hcon
        exact hD i hi (((eraseById_sublist _ _).map Execution.id).subset hcon)
      · exact List.Nodup.sublist ((eraseById_sublist _ _).map Execution.id) hN

/-- Helper: the essential sweep preserves the well-formedness. -/
theorem sweepDeadEssential_pres_WF (fuel : Nat) :
    ∀ (i : Nat) (st : SchedulerState),
      WFState st → WFState (sweepDeadEssential fuel i st) := by
  induction fuel with
  | zero => intro i st h; exact h
  | succ fuel ih =>
      intro i st h
      rw [sweepDeadEssential]
      split
      next => exact h
      next e hg =>
        split
        next => exact ih (i + 1) st h
        next s hf =>
          apply ih
          apply terminate_pres_WF
          · intro hc
            exact h.2.2.1 e.id hc
              (List.mem_map_of_mem Execution.id (List.getElem?_mem hg))
          · exact h

/-- Helper: the elastic sweep preserves the well-formedness. -/
theorem sweepDeadElastic_pres_WF (fuel : Nat) :
    ∀ (i : Nat) (st : SchedulerState),
      WFState st → WFState (sweepDeadElastic fuel i st) := by
  induction fuel with
  | zero => intro i st h; exact h
  | succ fuel ih =>
      intro i st h
      rw [sweepDeadElastic]
      split
      next => exact h
      next e hg =>
        split
        next => exact ih (i + 1) st h
        next s hf =>
          apply ih
          obtain ⟨hQ, hR, hD, hN⟩ := h
          have hmem : e ∈ st.queue_running := List.getElem?_mem hg
          refine ⟨?_, ?_, ?_, ?_⟩
          · intro x hx
            rcases List.mem_append.mp hx with hx | hx
            · exact hQ x hx
            · rw [List.mem_singleton] at hx
              subst hx
              exact hR e hmem
          · intro x hx
            exact hR x ((eraseById_sublist _ _).subset hx)
          · intro i' hi' hcon
            have hsub := ((eraseById_sublist st.queue_running e.id).map
              Execution.id).subset hcon
            simp only [execIds, List.map_append, List.map_cons,
              List.map_nil, List.mem_append, List.mem_cons,
              List.not_mem_nil, or_false] at hi'
            rcases hi' with hi' | hi'
            · exact hD i' hi' hsub
            · have heq : i' = e.id := hi'
              subst heq
              exact not_mem_execIds_eraseById _ _ hN hcon
          · exact List.Nodup.sublist
              ((eraseById_sublist _ _).map Execution.id) hN

/-- Helper: one recovery step preserves the pending-queue invariant. -/
theorem initStep_pres_invQ (st : SchedulerState) (e : Execution)
    (h : invariantQ st) : invariantQ (initStep st e) := by
  unfold initStep
  split
  · exact h
  · intro x hx
    rcases List.mem_append.mp hx with hx | hx
    · by_cases hxe : x.id = e.id
      · rw [hxe, lookupA_setA_self]
        rfl
      · rw [lookupA_setA_ne _ _ _ _ hxe]
        exact h x hx
    · rw [List.mem_singleton] at hx
      subst hx
      rw [lookupA_setA_self]
      rfl

/-- Helper: the recovery fold preserves the pending-queue invariant. -/
theorem initFold_pres_invQ (l : List Execution) :
    ∀ st : SchedulerState, invariantQ st → invariantQ (l.foldl initStep st) := by
  induction l with
  | nil => intro st h; exact h
  | cons e rest ih =>
      intro st h
      rw [List.foldl_cons]
      exact ih _ (initStep_pres_invQ st e h)

/-- C10 (amended): every pending execution having a progress entry is
preserved by `incoming` and established by construction-time recovery; the
dead-elastic requeue of `_check_dead_services` preserves it only under the
stronger premise that every running execution also has a progress entry
(true for executions that entered through `incoming`, whose entries are
deleted only by `terminate`) together with queue-id disjointness and
distinct running ids. -/
theorem additional_exec_state_invariant :
    (∀ (st : SchedulerState) (e : Execution),
      invariantQ st → invariantQ (incoming st e)) ∧
    (∀ (policy : Policy) (rows : List Execution),
      invariantQ (initScheduler policy rows)) ∧
    (∀ st : SchedulerState,
      invariantQ st → invariantR st →
      (∀ i ∈ execIds st.queue, i ∉ execIds st.queue_running) →
      (execIds st.queue_running).Nodup →
      invariantQ (checkDeadServices st) ∧
        invariantR (checkDeadServices st)) := by
  refine ⟨?_, ?_, ?_⟩
  · intro st e h x hx
    simp only [incoming] at hx ⊢
    rcases List.mem_append.mp hx with hx | hx
    · by_cases hxe : x.id = e.id
      · rw [hxe, lookupA_setA_self]
        rfl
      · rw [lookupA_setA_ne _ _ _ _ hxe]
        exact h x hx
    · rw [List.mem_singleton] at hx
      subst hx
      rw [lookupA_setA_self]
      rfl
  · intro policy rows
    apply initFold_pres_invQ
    intro x hx
    simp at hx
  · intro st h1 h2 h3 h4
    have hwf : WFState (checkDeadServices st) := by
      unfold checkDeadServices
      exact sweepDeadElastic_pres_WF _ 0 _
        (sweepDeadEssential_pres_WF _ 0 st ⟨h1, h2, h3, h4⟩)
    exact ⟨hwf.1, hwf.2.1⟩

/-- Counterexample to C10 as stated: construction-time recovery puts a
fully-running execution into the running queue without a progress entry;
when its elastic service later dies, the dead-elastic requeue moves it to
the pending queue still without an entry — the invariant held before the
sweep (the pending queue was empty) and is broken after it. -/
theorem check_dead_requeue_breaks_invariant :
    invariantQ wOrphanState ∧
    ¬ invariantQ (checkDeadServices wOrphanState) := by
  constructor
  · intro x hx
    simp [wOrphanState] at hx
  · intro hinv
    have hq : (checkDeadServices wOrphanState).queue
        = [restartService (mkDeadElasticExec 5 51) 51] := by rfl
    have ha : (checkDeadServices wOrphanState).additional_exec_state
        = [] := by rfl
    have hx := hinv (restartService (mkDeadElasticExec 5 51) 51)
      (by rw [hq]; exact List.mem_singleton.mpr rfl)
    rw [ha] at hx
    simp [lookupA] at hx

/-- Helper: a successful `removeById` returns the id-erased list. -/
theorem removeById_some_eq (l : List Execution) (i : Nat)
    (r : List Execution) (h : removeById l i = some r) :
    r = eraseById l i := by
  have hm : i ∈ execIds l := by
    by_contra hc
    rw [(removeById_eq_none l i).mpr hc] at h
    exact Option.noConfusion h
  rw [removeById_of_mem l i hm] at h
  injection h with h
  exact h.symm

/-- Helper: an id absent from a list is absent from any id-erased list. -/
theorem notmem_execIds_eraseById_of_notmem (l : List Execution)
    (i jid : Nat) (h : jid ∉ execIds l) :
    jid ∉ execIds (eraseById l i) :=
  fun hc => h (((eraseById_sublist l i).map Execution.id).subset hc)

/-- Helper: erasing an id keeps the ids distinct. -/
theorem execIds_eraseById_nodup (l : List Execution) (i : Nat)
    (h : (execIds l).Nodup) : (execIds (eraseById l i)).Nodup :=
  List.Nodup.sublist ((eraseById_sublist l i).map Execution.id) h

/-- Helper: `commitFinish` on a job with a different id preserves the
untouched premise. -/
theorem commitFinish_pres_untouched (active : Nat → Bool) (jid : Nat)
    (j : Execution) (st st2 : CommitState) (hne : j.id ≠ jid)
    (h : UntouchedBy jid st)
    (hs : commitFinish active st j = some st2) :
    UntouchedBy jid st2 := by
  obtain ⟨h1, h2, h3, h4, h5⟩ := h
  unfold commitFinish at hs
  dsimp only at hs
  by_cases ha : active j.id = true
  · rw [if_pos ha] at hs
    cases hc1 : removeById st.candidates j.id with
    | none => rw [hc1] at hs; exact Option.noConfusion hs
    | some cands =>
        rw [hc1] at hs
        cases hc2 : removeById st.queue j.id with
        | none => rw [hc2] at hs; exact Option.noConfusion hs
        | some q =>
            rw [hc2] at hs
            injection hs with hs
            subst hs
            have hq := removeById_some_eq _ _ _ hc2
            have hc := removeById_some_eq _ _ _ hc1
            subst hq
            subst hc
            refine ⟨execIds_eraseById_nodup _ _ h1,
              execIds_eraseById_nodup _ _ h2, ?_, ?_, ?_⟩
            · simp only [execIds, List.map_append, List.map_cons,
                List.map_nil, List.mem_append, List.mem_cons,
                List.not_mem_nil, or_false]
              rintro (hc | hc)
              · exact h3 hc
              · exact hne hc.symm
            · simp only [List.append_assoc, List.mem_append,
                List.mem_singleton]
              rintro (hc | hc | hc)
              · exact h4 hc
              · exact hne (by injection hc with hc; exact hc.symm)
              · exact Event.noConfusion hc
            · simp only [List.append_assoc, List.mem_append,
                List.mem_singleton]
              rintro (hc | hc | hc)
              · exact h5 hc
              · exact Event.noConfusion hc
              · exact Event.noConfusion hc
  · rw [if_neg ha] at hs
    injection hs with hs
    subst hs
    refine ⟨h1, h2, h3, ?_, ?_⟩
    · simp only [List.mem_append, List.mem_singleton]
      rintro (hc | hc)
      · exact h4 hc
      · exact hne (by injection hc with hc; exact hc.symm)
    · simp only [List.mem_append, List.mem_singleton]
      rintro (hc | hc)
      · exact h5 hc
      · exact Event.noConfusion hc

/-- Helper: `_requeue` on a job with a different id preserves the untouched
premise. -/
theorem requeueJob_pres_untouched (now : ℚ) (jid : Nat) (j : Execution)
    (st st2 : CommitState) (hne : j.id ≠ jid) (h : UntouchedBy jid st)
    (hs : requeueJob now st j = some st2) : UntouchedBy jid st2 := by
  obtain ⟨h1, h2, h3, h4, h5⟩ := h
  unfold requeueJob at hs
  cases hl : lookupA st.additional_exec_state j.id with
  | none => rw [hl] at hs; exact Option.noConfusion hs
  | some pr =>
      rw [hl] at hs
      injection hs with hs
      subst hs
      refine ⟨h1, h2, h3, ?_, ?_⟩
      · simp only [List.mem_append, List.mem_cons, List.mem_singleton,
          List.not_mem_nil, or_false]
        rintro (hc | hc | hc)
        · exact h4 hc
        · exact Event.noConfusion hc
        · exact Event.noConfusion hc
      · simp only [List.mem_append, List.mem_cons, List.mem_singleton,
          List.not_mem_nil, or_false]
        rintro (hc | hc | hc)
        · exact h5 hc
        · exact Event.noConfusion hc
        · exact hne (by injection hc with hc; exact hc.symm)

/-- Helper: a commit step on a job with a different id preserves the
untouched premise. -/
theorem commitStep_pres_untouched (sres : Nat → StartResult)
    (esr active : Nat → Bool) (now : ℚ) (jid : Nat) (j : Execution)
    (st st2 : CommitState) (hne : j.id ≠ jid) (h : UntouchedBy jid st)
    (hs : commitStep sres esr active now st j = some st2) :
    UntouchedBy jid st2 := by
  unfold commitStep at hs
  by_cases he : esr j.id = true
  · rw [if_pos he] at hs
    exact commitFinish_pres_untouched active jid j st st2 hne h hs
  · rw [if_neg he] at hs
    obtain ⟨h1, h2, h3, h4, h5⟩ := h
    cases hr : sres j.id with
    | fatal =>
        rw [hr] at hs
        dsimp only at hs
        cases hc1 : removeById st.candidates j.id with
        | none => rw [hc1] at hs; exact Option.noConfusion hs
        | some cands =>
            rw [hc1] at hs
            cases hc2 : removeById st.queue j.id with
            | none => rw [hc2] at hs; exact Option.noConfusion hs
            | some q =>
                rw [hc2] at hs
                injection hs with hs
                subst hs
                have hqe := removeById_some_eq _ _ _ hc2
                have hce := removeById_some_eq _ _ _ hc1
                subst hqe
                subst hce
                refine ⟨execIds_eraseById_nodup _ _ h1,
                  execIds_eraseById_nodup _ _ h2, h3, ?_, ?_⟩
                · simp only [List.append_assoc, List.mem_append,
                    List.mem_singleton]
                  rintro (hc | hc | hc)
                  · exact h4 hc
                  · exact Event.noConfusion hc
                  · exact Event.noConfusion hc
                · simp only [List.append_assoc, List.mem_append,
                    List.mem_singleton]
                  rintro (hc | hc | hc)
                  · exact h5 hc
                  · exact Event.noConfusion hc
                  · exact Event.noConfusion hc
    | requeue =>
        rw [hr] at hs
        dsimp only at hs
        have hA : Event.startElasticEv jid ∉ st.events
            ++ [Event.startEssentialEv j.id StartResult.requeue] := by
          simp only [List.mem_append, List.mem_singleton]
          rintro (hc | hc)
          · exact h4 hc
          · exact Event.noConfusion hc
        have hB : Event.requeueEv jid ∉ st.events
            ++ [Event.startEssentialEv j.id StartResult.requeue] := by
          simp only [List.mem_append, List.mem_singleton]
          rintro (hc | hc)
          · exact h5 hc
          · exact Event.noConfusion hc
        exact requeueJob_pres_untouched now jid j
          { st with events := st.events
              ++ [Event.startEssentialEv j.id StartResult.requeue] }
          st2 hne ⟨h1, h2, h3, hA, hB⟩ hs
    | ok =>
        rw [hr] at hs
        dsimp only at hs
        have hA : Event.startElasticEv jid ∉ st.events
            ++ [Event.startEssentialEv j.id StartResult.ok] := by
          simp only [List.mem_append, List.mem_singleton]
          rintro (hc | hc)
          · exact h4 hc
          · exact Event.noConfusion hc
        have hB : Event.requeueEv jid ∉ st.events
            ++ [Event.startEssentialEv j.id StartResult.ok] := by
          simp only [List.mem_append, List.mem_singleton]
          rintro (hc | hc)
          · exact h5 hc
          · exact Event.noConfusion hc
        exact commitFinish_pres_untouched active jid
          { j with status := ExecStatus.running }
          { st with events := st.events
              ++ [Event.startEssentialEv j.id StartResult.ok] }
          st2 hne ⟨h1, h2, h3, hA, hB⟩ hs

/-- Helper: the commit step on the fatal job itself discards it. -/
theorem commitStep_fatal_discards (sres : Nat → StartResult)
    (esr active : Nat → Bool) (now : ℚ) (job : Execution)
    (st st2 : CommitState)
    (hesr : esr job.id = false) (hfatal : sres job.id = StartResult.fatal)
    (h : UntouchedBy job.id st)
    (hs : commitStep sres esr active now st job = some st2) :
    DiscardedIn job.id st2 := by
  obtain ⟨h1, h2, h3, h4, h5⟩ := h
  unfold commitStep at hs
  rw [if_neg (by rw [hesr]; exact Bool.false_ne_true), hfatal] at hs
  dsimp only at hs
  cases hc1 : removeById st.candidates job.id with
  | none => rw [hc1] at hs; exact Option.noConfusion hs
  | some cands =>
      rw [hc1] at hs
      cases hc2 : removeById st.queue job.id with
      | none => rw [hc2] at hs; exact Option.noConfusion hs
      | some q =>
          rw [hc2] at hs
          injection hs with hs
          subst hs
          have hqe := removeById_some_eq _ _ _ hc2
          have hce := removeById_some_eq _ _ _ hc1
          subst hqe
          subst hce
          refine ⟨not_mem_execIds_eraseById _ _ h1,
            not_mem_execIds_eraseById _ _ h2, h3, ?_, ?_, ?_, ?_⟩
          · simp
          · simp
          · simp only [List.append_assoc, List.mem_append,
              List.mem_singleton]
            rintro (hc | hc | hc)
            · exact h4 hc
            · exact Event.noConfusion hc
            · exact Event.noConfusion hc
          · simp only [List.append_assoc, List.mem_append,
              List.mem_singleton]
            rintro (hc | hc | hc)
            · exact h5 hc
            · exact Event.noConfusion hc
            · exact Event.noConfusion hc

/-- Helper: `commitFinish` on a job with a different id preserves the
discarded outcome. -/
theorem commitFinish_pres_discarded (active : Nat → Bool) (jid : Nat)
    (j : Execution) (st st2 : CommitState) (hne : j.id ≠ jid)
    (h : DiscardedIn jid st)
    (hs : commitFinish active st j = some st2) :
    DiscardedIn jid st2 := by
  obtain ⟨h1, h2, h3, h4, h5, h6, h7⟩ := h
  unfold commitFinish at hs
  dsimp only at hs
  by_cases ha : active j.id = true
  · rw [if_pos ha] at hs
    cases hc1 : removeById st.candidates j.id with
    | none => rw [hc1] at hs; exact Option.noConfusion hs
    | some cands =>
        rw [hc1] at hs
        cases hc2 : removeById st.queue j.id with
        | none => rw [hc2] at hs; exact Option.noConfusion hs
        | some q =>
            rw [hc2] at hs
            injection hs with hs
            subst hs
            have hqe := removeById_some_eq _ _ _ hc2
            have hce := removeById_some_eq _ _ _ hc1
            subst hqe
            subst hce
            refine ⟨notmem_execIds_eraseById_of_notmem _ _ _ h1,
              notmem_execIds_eraseById_of_notmem _ _ _ h2, ?_, ?_, ?_,
              ?_, ?_⟩
            · simp only [execIds, List.map_append, List.map_cons,
                List.map_nil, List.mem_append, List.mem_cons,
                List.not_mem_nil, or_false]
              rintro (hc | hc)
              · exact h3 hc
              · exact hne hc.symm
            · simp only [List.append_assoc, List.mem_append]
              exact Or.inl h4
            · simp only [List.append_assoc, List.mem_append]
              exact Or.inl h5
            · simp only [List.append_assoc, List.mem_append,
                List.mem_singleton]
              rintro (hc | hc | hc)
              · exact h6 hc
              · exact hne (by injection hc with hc; exact hc.symm)
              · exact Event.noConfusion hc
            · simp only [List.append_assoc, List.mem_append,
                List.mem_singleton]
              rintro (hc | hc | hc)
              · exact h7 hc
              · exact Event.noConfusion hc
              · exact Event.noConfusion hc
  · rw [if_neg ha] at hs
    injection hs with hs
    subst hs
    refine ⟨h1, h2, h3, List.mem_append_left _ h4,
      List.mem_append_left _ h5, ?_, ?_⟩
    · simp only [List.mem_append, List.mem_singleton]
      rintro (hc | hc)
      · exact h6 hc
      · exact hne (by injection hc with hc; exact hc.symm)
    · simp only [List.mem_append, List.mem_singleton]
      rintro (hc | hc)
      · exact h7 hc
      · exact Event.noConfusion hc

/-- Helper: `_requeue` on a job with a different id preserves the discarded
outcome. -/
theorem requeueJob_pres_discarded (now : ℚ) (jid : Nat) (j : Execution)
    (st st2 : CommitState) (hne : j.id ≠ jid) (h : DiscardedIn jid st)
    (hs : requeueJob now st j = some st2) : DiscardedIn jid st2 := by
  obtain ⟨h1, h2, h3, h4, h5, h6, h7⟩ := h
  unfold requeueJob at hs
  cases hl : lookupA st.additional_exec_state j.id with
  | none => rw [hl] at hs; exact Option.noConfusion hs
  | some pr =>
      rw [hl] at hs
      injection hs with hs
      subst hs
      refine ⟨h1, h2, h3, List.mem_append_left _ h4,
        List.mem_append_left _ h5, ?_, ?_⟩
      · simp only [List.mem_append, List.mem_cons, List.mem_singleton,
          List.not_mem_nil, or_false]
        rintro (hc | hc | hc)
        · exact h6 hc
        · exact Event.noConfusion hc
        · exact Event.noConfusion hc
      · simp only [List.mem_append, List.mem_cons, List.mem_singleton,
          List.not_mem_nil, or_false]
        rintro (hc | hc | hc)
        · exact h7 hc
        · exact Event.noConfusion hc
        · exact hne (by injection hc with hc; exact hc.symm)

/-- Helper: a commit step on a job with a different id preserves the
discarded outcome. -/
theorem commitStep_pres_discarded (sres : Nat → StartResult)
    (esr active : Nat → Bool) (now : ℚ) (jid : Nat) (j : Execution)
    (st st2 : CommitState) (hne : j.id ≠ jid) (h : DiscardedIn jid st)
    (hs : commitStep sres esr active now st j = some st2) :
    DiscardedIn jid st2 := by
  unfold commitStep at hs
  by_cases he : esr j.id = true
  · rw [if_pos he] at hs
    exact commitFinish_pres_discarded active jid j st st2 hne h hs
  · rw [if_neg he] at hs
    obtain ⟨h1, h2, h3, h4, h5, h6, h7⟩ := h
    cases hr : sres j.id with
    | fatal =>
        rw [hr] at hs
        dsimp only at hs
        cases hc1 : removeById st.candidates j.id with
        | none => rw [hc1] at hs; exact Option.noConfusion hs
        | some cands =>
            rw [hc1] at hs
            cases hc2 : removeById st.queue j.id with
            | none => rw [hc2] at hs; exact Option.noConfusion hs
            | some q =>
                rw [hc2] at hs
                injection hs with hs
                subst hs
                have hqe := removeById_some_eq _ _ _ hc2
                have hce := removeById_some_eq _ _ _ hc1
                subst hqe
                subst hce
                refine ⟨notmem_execIds_eraseById_of_notmem _ _ _ h1,
                  notmem_execIds_eraseById_of_notmem _ _ _ h2, h3,
                  ?_, ?_, ?_, ?_⟩
                · simp only [List.append_assoc, List.mem_append]
                  exact Or.inl h4
                · simp only [List.append_assoc, List.mem_append]
                  exact Or.inl h5
                · simp only [List.append_assoc, List.mem_append,
                    List.mem_singleton]
                  rintro (hc | hc | hc)
                  · exact h6 hc
                  · exact Event.noConfusion hc
                  · exact Event.noConfusion hc
                · simp only [List.append_assoc, List.mem_append,
                    List.mem_singleton]
                  rintro (hc | hc | hc)
                  · exact h7 hc
                  · exact Event.noConfusion hc
                  · exact Event.noConfusion hc
    | requeue =>
        rw [hr] at hs
        dsimp only at hs
        have hA : Event.startElasticEv jid ∉ st.events
            ++ [Event.startEssentialEv j.id StartResult.requeue] := by
          simp only [List.mem_append, List.mem_singleton]
          rintro (hc | hc)
          · exact h6 hc
          · exact Event.noConfusion hc
        have hB : Event.requeueEv jid ∉ st.events
            ++ [Event.startEssentialEv j.id StartResult.requeue] := by
          simp only [List.mem_append, List.mem_singleton]
          rintro (hc | hc)
          · exact h7 hc
          · exact Event.noConfusion hc
        exact requeueJob_pres_discarded now jid j
          { st with events := st.events
              ++ [Event.startEssentialEv j.id StartResult.requeue] }
          st2 hne
          ⟨h1, h2, h3, List.mem_append_left _ h4,
            List.mem_append_left _ h5, hA, hB⟩ hs
    | ok =>
        rw [hr] at hs
        dsimp only at hs
        have hA : Event.startElasticEv jid ∉ st.events
            ++ [Event.startEssentialEv j.id StartResult.ok] := by
          simp only [List.mem_append, List.mem_singleton]
          rintro (hc | hc)
          · exact h6 hc
          · exact Event.noConfusion hc
        have hB : Event.requeueEv jid ∉ st.events
            ++ [Event.startEssentialEv j.id StartResult.ok] := by
          simp only [List.mem_append, List.mem_singleton]
          rintro (hc | hc)
          · exact h7 hc
          · exact Event.noConfusion hc
        exact commitFinish_pres_discarded active jid
          { j with status := ExecStatus.running }
          { st with events := st.events
              ++ [Event.startEssentialEv j.id StartResult.ok] }
          st2 hne
          ⟨h1, h2, h3, List.mem_append_left _ h4,
            List.mem_append_left _ h5, hA, hB⟩ hs

/-- Helper: the commit fold over jobs with other ids preserves the
untouched premise. -/
theorem foldlM_commitStep_pres_untouched (sres : Nat → StartResult)
    (esr active : Nat → Bool) (now : ℚ) (jid : Nat) :
    ∀ (l : List Execution) (st st2 : CommitState),
      (∀ j ∈ l, j.id ≠ jid) → UntouchedBy jid st →
      l.foldlM (commitStep sres esr active now) st = some st2 →
      UntouchedBy jid st2 := by
  intro l
  induction l with
  | nil =>
      intro st st2 _ h hs
      injection hs with hs
      subst hs
      exact h
  | cons j rest ih =>
      intro st st2 hne h hs
      rw [List.foldlM_cons] at hs
      cases hc : commitStep sres esr active now st j with
      | none => rw [hc] at hs; exact Option.noConfusion hs
      | some mid =>
          rw [hc] at hs
          exact ih mid st2 (fun x hx => hne x (List.mem_cons_of_mem j hx))
            (commitStep_pres_untouched sres esr active now jid j st mid
              (hne j (List.mem_cons_self j rest)) h hc) hs

/-- Helper: the commit fold over jobs with other ids preserves the
discarded outcome. -/
theorem foldlM_commitStep_pres_discarded (sres : Nat → StartResult)
    (esr active : Nat → Bool) (now : ℚ) (jid : Nat) :
    ∀ (l : List Execution) (st st2 : CommitState),
      (∀ j ∈ l, j.id ≠ jid) → DiscardedIn jid st →
      l.foldlM (commitStep sres esr active now) st = some st2 →
      DiscardedIn jid st2 := by
  intro l
  induction l with
  | nil =>
      intro st st2 _ h hs
      injection hs with hs
      subst hs
      exact h
  | cons j rest ih =>
      intro st st2 hne h hs
      rw [List.foldlM_cons] at hs
      cases hc : commitStep sres esr active now st j with
      | none => rw [hc] at hs; exact Option.noConfusion hs
      | some mid =>
          rw [hc] at hs
          exact ih mid st2 (fun x hx => hne x (List.mem_cons_of_mem j hx))
            (commitStep_pres_discarded sres esr active now jid j st mid
              (hne j (List.mem_cons_self j rest)) h hc) hs

/-- Helper: the end-of-round requeue fold over jobs with other ids
preserves the discarded outcome. -/
theorem foldlM_requeue_pres_discarded (now : ℚ) (jid : Nat) :
    ∀ (l : List Execution) (st st2 : CommitState),
      (∀ j ∈ l, j.id ≠ jid) → DiscardedIn jid st →
      l.foldlM (fun s j => requeueJob now s j) st = some st2 →
      DiscardedIn jid st2 := by
  intro l
  induction l with
  | nil =>
      intro st st2 _ h hs
      injection hs with hs
      subst hs
      exact h
  | cons j rest ih =>
      intro st st2 hne h hs
      rw [List.foldlM_cons] at hs
      cases hc : requeueJob now st j with
      | none => rw [hc] at hs; exact Option.noConfusion hs
      | some mid =>
          rw [hc] at hs
          exact ih mid st2 (fun x hx => hne x (List.mem_cons_of_mem j hx))
            (requeueJob_pres_discarded now jid j st mid
              (hne j (List.mem_cons_self j rest)) h hc) hs

/-- C4: when `start_essential` is fatal for a job of `jobs_to_launch`
(essential services not yet running, distinct ids, job id untouched so
far), a successful commit phase leaves the job absent from the pending
queue, the candidate list and the running queue, with its lock released
after the fatal start, no `start_elastic` call for it and no re-queue of it
in that round. -/
theorem fatal_start_discards_job (sres : Nat → StartResult)
    (esr active : Nat → Bool) (now : ℚ) (st st' : CommitState)
    (jobs : List Execution) (job : Execution)
    (hmem : job ∈ jobs)
    (hnd : (jobs.map Execution.id).Nodup)
    (hesr : esr job.id = false)
    (hfatal : sres job.id = StartResult.fatal)
    (hndq : (execIds st.queue).Nodup)
    (hndc : (execIds st.candidates).Nodup)
    (hrun : job.id ∉ execIds st.queue_running)
    (hev1 : Event.startElasticEv job.id ∉ st.events)
    (hev2 : Event.requeueEv job.id ∉ st.events)
    (hsucc : commitPhase sres esr active now st jobs = some st') :
    job.id ∉ execIds st'.queue ∧
    job.id ∉ execIds st'.candidates ∧
    job.id ∉ execIds st'.queue_running ∧
    Event.startEssentialEv job.id StartResult.fatal ∈ st'.events ∧
    Event.releaseLockEv job.id ∈ st'.events ∧
    Event.startElasticEv job.id ∉ st'.events ∧
    Event.requeueEv job.id ∉ st'.events := by
  obtain ⟨l1, l2, rfl⟩ := List.append_of_mem hmem
  rw [List.map_append, List.map_cons] at hnd
  have hdisj := List.nodup_append.mp hnd
  have hl1 : ∀ j ∈ l1, j.id ≠ job.id := by
    intro j hj hc
    exact hdisj.2.2 (List.mem_map_of_mem Execution.id hj)
      (hc ▸ List.mem_cons_self job.id (l2.map Execution.id))
  have hl2 : ∀ j ∈ l2, j.id ≠ job.id := by
    intro j hj hc
    exact (List.nodup_cons.mp hdisj.2.1).1
      (hc ▸ List.mem_map_of_mem Execution.id hj)
  unfold commitPhase at hsucc
  rw [List.foldlM_append] at hsucc
  cases hB : l1.foldlM (commitStep sres esr active now) st with
  | none =>
      rw [hB] at hsucc
      simp only [Option.bind_eq_bind, Option.none_bind] at hsucc
      exact Option.noConfusion hsucc
  | some stB =>
      rw [hB] at hsucc
      simp only [Option.bind_eq_bind, Option.some_bind] at hsucc
      rw [List.foldlM_cons] at hsucc
      cases hC : commitStep sres esr active now stB job with
      | none =>
          rw [hC] at hsucc
          simp only [Option.bind_eq_bind, Option.none_bind] at hsucc
          exact Option.noConfusion hsucc
      | some stC =>
          rw [hC] at hsucc
          simp only [Option.bind_eq_bind, Option.some_bind] at hsucc
          cases hD : l2.foldlM (commitStep sres esr active now) stC with
          | none =>
              rw [hD] at hsucc
              simp only [Option.bind_eq_bind, Option.none_bind] at hsucc
              exact Option.noConfusion hsucc
          | some stA =>
              rw [hD] at hsucc
              simp only [Option.bind_eq_bind, Option.some_bind] at hsucc
              have hpre : UntouchedBy job.id stB :=
                foldlM_commitStep_pres_untouched sres esr active now job.id
                  l1 st stB hl1 ⟨hndq, hndc, hrun, hev1, hev2⟩ hB
              have hpost : DiscardedIn job.id stC :=
                commitStep_fatal_discards sres esr active now job stB stC
                  hesr hfatal hpre hC
              have hpostA : DiscardedIn job.id stA :=
                foldlM_commitStep_pres_discarded sres esr active now job.id
                  l2 stC stA hl2 hpost hD
              have hpostA2 : DiscardedIn job.id
                  { stA with core_limit_recalc_trigger := true } :=
                ⟨hpostA.1, hpostA.2.1, hpostA.2.2.1, hpostA.2.2.2.1,
                  hpostA.2.2.2.2.1, hpostA.2.2.2.2.2.1,
                  hpostA.2.2.2.2.2.2⟩
              have hcand : ∀ j ∈
                  ({ stA with core_limit_recalc_trigger := true } :
                    CommitState).candidates, j.id ≠ job.id := by
                intro j hj hc
                exact hpostA2.2.1 (hc ▸ List.mem_map_of_mem Execution.id hj)
              have hfinal := foldlM_requeue_pres_discarded now job.id _ _ st'
                hcand hpostA2 hsucc
              exact ⟨hfinal.1, hfinal.2.1, hfinal.2.2.1, hfinal.2.2.2.1,
                hfinal.2.2.2.2.1, hfinal.2.2.2.2.2.1,
                hfinal.2.2.2.2.2.2⟩

/-- Witness for C4 at a concrete input: a one-job round in which
`start_essential` is fatal ends with the job gone from all three lists, its
lock released, and neither `start_elastic` nor a re-queue recorded. -/
theorem fatal_start_discards_job_witness :
    commitPhase (fun _ => StartResult.fatal) (fun _ => false)
        (fun _ => true) 0 wCommitState [wFatalExec] = some wCommitResult ∧
    7 ∉ execIds wCommitResult.queue ∧
    7 ∉ execIds wCommitResult.candidates ∧
    7 ∉ execIds wCommitResult.queue_running ∧
    Event.releaseLockEv 7 ∈ wCommitResult.events ∧
    Event.startElasticEv 7 ∉ wCommitResult.events ∧
    Event.requeueEv 7 ∉ wCommitResult.events := by
  have hsucc : commitPhase (fun _ => StartResult.fatal) (fun _ => false)
      (fun _ => true) 0 wCommitState [wFatalExec] = some wCommitResult := by
    decide
  have h := fatal_start_discards_job (fun _ => StartResult.fatal)
    (fun _ => false) (fun _ => true) 0 wCommitState wCommitResult
    [wFatalExec] wFatalExec (by decide) (by decide) rfl rfl
    (by decide) (by decide) (by decide) (by decide) (by decide) hsucc
  exact ⟨hsucc, h.1, h.2.1, h.2.2.1, h.2.2.2.2.1, h.2.2.2.2.2.1,
    h.2.2.2.2.2.2⟩

/-- Witness for C10 (amended) at concrete inputs: `incoming` on the empty
state keeps the invariant, and on a state whose running executions all
have entries the dead-service sweeps keep both invariants. -/
theorem additional_exec_state_invariant_witness :
    invariantQ (incoming wEmptyState wExecBig) ∧
    invariantQ (checkDeadServices wTwoDeadState) ∧
    invariantR (checkDeadServices wTwoDeadState) := by
  have h := additional_exec_state_invariant
  have hq : invariantQ wTwoDeadState := by
    intro x hx
    simp [wTwoDeadState] at hx
  have hr : invariantR wTwoDeadState := by
    intro x hx
    simp [wTwoDeadState] at hx
    rcases hx with rfl | rfl <;> decide
  have hd : ∀ i ∈ execIds wTwoDeadState.queue,
      i ∉ execIds wTwoDeadState.queue_running := by
    intro i hi
    simp [wTwoDeadState, execIds] at hi
  have hn : (execIds wTwoDeadState.queue_running).Nodup := by decide
  obtain ⟨hA, hB⟩ := h.2.2 wTwoDeadState hq hr hd hn
  refine ⟨h.1 wEmptyState wExecBig ?_, hA, hB⟩
  intro x hx
  simp [wEmptyState] at hx

end Zoe
